import Mathlib

set_option maxHeartbeats 1000000

/-!
Shallow embedding of the notes-db tag-normalization engine.

The embedding models the DuckDB-backed state as explicit lists:
`notes` is the `notes` table, `tags` the `tags` table (tag names are unique,
so a tag row is identified by its name), and `links` the `note_tags` table
joined with `tags` (each row is a `(note_id, tag_name)` pair).

Cosine distance between stored embeddings is computed by the storage
engine's `<=>` operator, which is outside this repository; it is passed in
as an abstract function `dist : List ℚ → List ℚ → ℚ`.
-/

/-- A row of the `notes` table. -/
structure NoteRow where
  note_id : Nat
  title : String
  content : String
  embedding : List ℚ
  deriving DecidableEq, Repr

/-- The database state visible to the tag-normalization engine. -/
structure DBState where
  notes : List NoteRow
  tags : List String
  links : List (Nat × String)
  deriving DecidableEq, Repr

/-- `SELECT 1 FROM notes WHERE note_id = ?` -/
def noteExists (st : DBState) (id : Nat) : Bool :=
  st.notes.any (fun n => n.note_id = id)

/-- The tag names linked to a note (`note_tags` joined with `tags`). -/
def currentTagsOf (st : DBState) (id : Nat) : List String :=
  (st.links.filter (fun l => decide (l.1 = id))).map (fun l => l.2)

/-- `EXISTS (SELECT 1 FROM note_tags nt WHERE nt.note_id = ?)` -/
def hasTagLink (st : DBState) (id : Nat) : Bool :=
  st.links.any (fun l => l.1 = id)

/-- Get-or-create a row of the `tags` table (`INSERT` if the name is absent). -/
def ensureTag (st : DBState) (name : String) : DBState :=
  if name ∈ st.tags then st else { st with tags := st.tags ++ [name] }

/-- `DELETE FROM note_tags WHERE note_id = ? AND tag_id = ?`, executed for
every tag in `names` (tag ids and names are in bijection). -/
def removeLinks (st : DBState) (id : Nat) (names : List String) : DBState :=
  { st with links := st.links.filter (fun l => decide (¬ (l.1 = id ∧ l.2 ∈ names))) }

/-- `INSERT INTO note_tags (note_id, tag_id) VALUES (?, ?)` -/
def addLink (st : DBState) (id : Nat) (name : String) : DBState :=
  { st with links := st.links ++ [(id, name)] }

/-- The counters reported by `apply_tag_normalization`, plus the ids for
which a `Note ID not found` warning was echoed. -/
structure ApplyCounts where
  notesUpdated : Nat
  tagsRemoved : Nat
  tagsAdded : Nat
  warnings : List Nat
  deriving DecidableEq, Repr

def initCounts : ApplyCounts := ⟨0, 0, 0, []⟩

/-- One iteration of the `for note_id in note_id_list` loop in
`apply_tag_normalization` (src/note_taking/apply_tag_normalization.py,
lines 79-126). -/
def processNote (keep : String) (replace : List String)
    (acc : DBState × ApplyCounts) (id : Nat) : DBState × ApplyCounts :=
  let st := acc.1
  let c := acc.2
  if noteExists st id then
    let cur := currentTagsOf st id
    let hasPrimary := keep ∈ cur
    let toRemove := cur.filter (fun t => decide (t ∈ replace))
    let st1 := removeLinks st id toRemove
    let st2 := if hasPrimary then st1 else addLink st1 id keep
    (st2,
      { c with
        tagsRemoved := c.tagsRemoved + toRemove.length
        tagsAdded := c.tagsAdded + (if hasPrimary then 0 else 1)
        notesUpdated := c.notesUpdated + 1 })
  else
    (st, { c with warnings := c.warnings ++ [id] })

/-- The committed (exception-free) run of `apply_tag_normalization`:
get-or-create the keep tag, then process every requested note id in order. -/
def apply_tag_normalization (st : DBState) (note_id_list : List Nat)
    (keep_tag : String) (replace_tag_list : List String) : DBState × ApplyCounts :=
  note_id_list.foldl (processNote keep_tag replace_tag_list)
    (ensureTag st keep_tag, initCounts)

/-- A point inside the transaction body of `apply_tag_normalization` at which
an unexpected exception may be raised: during the keep-tag get-or-create,
before processing the note at position `k`, or in the middle of processing
the note at position `k` (after its removals, before its insert). -/
inductive FailPoint where
  | atTagSetup : FailPoint
  | beforeNote : Nat → FailPoint
  | midNote : Nat → FailPoint
  deriving DecidableEq, Repr

/-- The note-processing loop with an optional injected failure.  A failure
raises an exception (`Except.error`), abandoning the rest of the loop. -/
def goNotes (keep : String) (replace : List String) (fp : Option FailPoint) :
    List Nat → Nat → DBState → ApplyCounts → Except Unit (DBState × ApplyCounts)
  | [], _, st, c => .ok (st, c)
  | id :: rest, k, st, c =>
    if fp = some (.beforeNote k) then .error ()
    else if noteExists st id then
      let cur := currentTagsOf st id
      let hasPrimary := keep ∈ cur
      let toRemove := cur.filter (fun t => decide (t ∈ replace))
      let st1 := removeLinks st id toRemove
      if fp = some (.midNote k) then .error ()
      else
        goNotes keep replace fp rest (k + 1)
          (if hasPrimary then st1 else addLink st1 id keep)
          { c with
            tagsRemoved := c.tagsRemoved + toRemove.length
            tagsAdded := c.tagsAdded + (if hasPrimary then 0 else 1)
            notesUpdated := c.notesUpdated + 1 }
    else if fp = some (.midNote k) then .error ()
    else goNotes keep replace fp rest (k + 1) st { c with warnings := c.warnings ++ [id] }

/-- `apply_tag_normalization` with its transaction discipline:
`BEGIN TRANSACTION` snapshots the durable state, the body mutates the
working state, `COMMIT` publishes it, and the `except` handler issues
`ROLLBACK` (restoring the snapshot) and reports the failure (`none`). -/
def apply_tag_normalization_txn (durable : DBState) (note_id_list : List Nat)
    (keep_tag : String) (replace_tag_list : List String) (fp : Option FailPoint) :
    DBState × Option ApplyCounts :=
  let body :=
    if fp = some .atTagSetup then Except.error ()
    else goNotes keep_tag replace_tag_list fp note_id_list 0
      (ensureTag durable keep_tag) initCounts
  match body with
  | .ok (st, c) => (st, some c)
  | .error _ => (durable, none)

/-! ### The suggestion pipeline (`suggest_tag_normalization.py`) -/

/-- An entry of the `notes_data` dictionary built by `cluster_similar_notes`:
a note together with its title and tag names. -/
structure CNote where
  note_id : Nat
  title : String
  tags : List String
  deriving DecidableEq, Repr

/-- The notes that have at least one tag link
(`WHERE EXISTS (SELECT 1 FROM note_tags nt WHERE nt.note_id = n.note_id)`). -/
def taggedNotes (st : DBState) : List NoteRow :=
  st.notes.filter (fun n => hasTagLink st n.note_id)

/-- The `notes_data` association list: every tagged note keyed by its id,
keeping only notes whose tag list is non-empty. -/
def notesData (st : DBState) : List (Nat × CNote) :=
  (taggedNotes st).filterMap (fun n =>
    if currentTagsOf st n.note_id = [] then none
    else some (n.note_id, ⟨n.note_id, n.title, currentTagsOf st n.note_id⟩))

/-- First-match association-list lookup (the `notes_data[note_id]` access). -/
def lookupNote (nd : List (Nat × CNote)) (i : Nat) : Option CNote :=
  match nd with
  | [] => none
  | (k, v) :: rest => if k = i then some v else lookupNote rest i

/-- The `similar_pairs` SQL query: every pair of tagged notes with
`n1.note_id < n2.note_id` whose embedding distance is within the
distance threshold.  One direction per unordered pair. -/
def similar_pairs (st : DBState) (dist : List ℚ → List ℚ → ℚ)
    (distance_threshold : ℚ) : List (Nat × Nat) :=
  (taggedNotes st).flatMap (fun n1 =>
    (taggedNotes st).filterMap (fun n2 =>
      if n1.note_id < n2.note_id ∧ dist n1.embedding n2.embedding ≤ distance_threshold
      then some (n1.note_id, n2.note_id) else none))

/-- Dictionary-style insertion used when building the similarity graph:
a key is appended on first sight. -/
def insertNode (l : List Nat) (v : Nat) : List Nat :=
  if v ∈ l then l else l ++ [v]

/-- The keys of the `similarity_graph` dictionary, in insertion order. -/
def graphNodes (edges : List (Nat × Nat)) : List Nat :=
  edges.foldl (fun acc e => insertNode (insertNode acc e.1) e.2) []

/-- The adjacency list of a node of the similarity graph: each edge
contributes its other endpoint, in edge order. -/
def adjList (edges : List (Nat × Nat)) (v : Nat) : List Nat :=
  edges.filterMap (fun e =>
    if e.1 = v then some e.2 else if e.2 = v then some e.1 else none)

/-- The stack-based depth-first search of `cluster_similar_notes`
(lines 155-173): pop, skip if visited, otherwise mark visited, append the
note's data record to the cluster, and push the unvisited neighbours.
The stack top is the list head; pushing reverses the neighbour order so
that the head is the last-appended neighbour, as with Python's
`list.append`/`list.pop`.  `fuel` bounds the number of loop iterations;
`none` means the fuel ran out (shown impossible for the fuel used). -/
def dfsRun (adjL : Nat → List Nat) (lk : Nat → Option CNote) :
    Nat → List Nat → List Nat → List CNote → Option (List CNote × List Nat)
  | 0, _, _, _ => none
  | _ + 1, [], visited, cluster => some (cluster, visited)
  | fuel + 1, current :: stack, visited, cluster =>
    if current ∈ visited then
      dfsRun adjL lk fuel stack visited cluster
    else
      dfsRun adjL lk fuel
        (((adjL current).filter (fun y => decide (¬ y ∈ current :: visited))).reverse ++ stack)
        (current :: visited)
        (match lk current with
          | some nd => cluster ++ [nd]
          | none => cluster)

/-- The outer `for note_id in similarity_graph` loop: start a DFS at every
unvisited node and keep the resulting cluster when it has at least 2 notes. -/
def outerLoop (adjL : Nat → List Nat) (lk : Nat → Option CNote) (fuel : Nat) :
    List Nat → List Nat → List (List CNote) → Option (List (List CNote) × List Nat)
  | [], visited, clusters => some (clusters, visited)
  | r :: rest, visited, clusters =>
    if r ∈ visited then outerLoop adjL lk fuel rest visited clusters
    else
      match dfsRun adjL lk fuel [r] visited [] with
      | none => none
      | some (cluster, visited2) =>
        outerLoop adjL lk fuel rest visited2
          (if 2 ≤ cluster.length then clusters ++ [cluster] else clusters)

/-- Fuel sufficient for any DFS over the given edge set (proved below). -/
def totalFuel (edges : List (Nat × Nat)) : Nat :=
  2 + ((graphNodes edges).map (fun v => 1 + (adjList edges v).length)).sum

/-- `cluster_similar_notes`: convert the similarity threshold into a
distance threshold (`distance = 1 - similarity`), build the similarity
graph over the tagged notes, and extract connected components by DFS. -/
def cluster_similar_notes (st : DBState) (dist : List ℚ → List ℚ → ℚ)
    (similarity_threshold : ℚ) : List (List CNote) :=
  let distance_threshold := 1 - similarity_threshold
  let nd := notesData st
  if nd = [] then []
  else
    let pairs := similar_pairs st dist distance_threshold
    if pairs = [] then []
    else
      match outerLoop (adjList pairs) (fun i => lookupNote nd i) (totalFuel pairs)
          (graphNodes pairs) [] [] with
      | some (clusters, _) => clusters
      | none => []

/-- One `tag_counts[tag] += 1` update of the insertion-ordered tally. -/
def bump (l : List (String × Nat)) (t : String) : List (String × Nat) :=
  match l with
  | [] => [(t, 1)]
  | (s, n) :: rest => if s = t then (s, n + 1) :: rest else (s, n) :: bump rest t

/-- The per-cluster tag tally of `find_tag_normalization_suggestions`:
every tag of every member note is counted. -/
def tagCounts (cluster : List CNote) : List (String × Nat) :=
  cluster.foldl (fun acc note => note.tags.foldl bump acc) []

/-- `max(tag_counts.items(), key=lambda x: x[1])`: the first entry with the
maximal count. -/
def maxByCount : List (String × Nat) → Option (String × Nat)
  | [] => none
  | p :: rest => some (rest.foldl (fun best q => if best.2 < q.2 then q else best) p)

/-- The `TagNormalizationSuggestion` record. -/
structure TagNormalizationSuggestion where
  note_ids : List Nat
  note_titles : List String
  tags : List (String × Nat)
  most_common_tag : String
  deriving DecidableEq, Repr

/-- The suggestion constructed for one cluster. -/
def mkSuggestion (cluster : List CNote) : TagNormalizationSuggestion :=
  { note_ids := cluster.map (fun n => n.note_id)
    note_titles := cluster.map (fun n => n.title)
    tags := tagCounts cluster
    most_common_tag :=
      match maxByCount (tagCounts cluster) with
      | some p => p.1
      | none => "" }

/-- `find_tag_normalization_suggestions` (lines 182-219): skip a cluster
whose tally has at most one distinct tag, otherwise emit a suggestion. -/
def find_tag_normalization_suggestions (clusters : List (List CNote)) :
    List TagNormalizationSuggestion :=
  clusters.foldl (fun suggestions cluster =>
    let tag_counts := tagCounts cluster
    if tag_counts.length ≤ 1 then suggestions
    else if 1 < tag_counts.length then suggestions ++ [mkSuggestion cluster]
    else suggestions) []

/-- The number of distinct tag names occurring on the members of a cluster. -/
def numDistinctTags (cluster : List CNote) : Nat :=
  ((cluster.flatMap (fun n => n.tags)).dedup).length

/-! ### `notes_database.py`: `add_note` and `search_notes_by_similarity` -/

/-- `add_note`: reject an embedding that is not exactly 3072-dimensional
before anything is written; otherwise insert the note and link its tags
(creating missing tag rows).  The id of the new row is one more than the
largest existing id (the schema file with the id default is not part of
the sources; no claim depends on the id allocation). -/
def add_note (st : DBState) (title content : String) (embedding : List ℚ)
    (tags : List String) : Except String (DBState × Nat) :=
  if embedding.length ≠ 3072 then .error "Embedding must be exactly 3072 dimensions"
  else
    let note_id := (st.notes.map (fun n => n.note_id)).foldl max 0 + 1
    let st1 : DBState := { st with notes := st.notes ++ [⟨note_id, title, content, embedding⟩] }
    let st2 := tags.foldl (fun s tag_name => addLink (ensureTag s tag_name) note_id tag_name) st1
    .ok (st2, note_id)

/-- A result row of `search_notes_by_similarity`. -/
structure SearchRow where
  note_id : Nat
  title : String
  content : String
  distance : ℚ
  tags : List String
  deriving DecidableEq, Repr

/-- `search_notes_by_similarity`: reject a query embedding that is not
exactly 3072-dimensional before the query runs; otherwise compute each
note's distance to the query, optionally filter by tag, order by distance
and apply the limit. -/
def search_notes_by_similarity (st : DBState) (dist : List ℚ → List ℚ → ℚ)
    (query_embedding : List ℚ) (limit : Nat) (tag_filter : Option String) :
    Except String (List SearchRow) :=
  if query_embedding.length ≠ 3072 then
    .error "Query embedding must be exactly 3072 dimensions"
  else
    let rows := st.notes.filterMap (fun n =>
      let row : SearchRow :=
        ⟨n.note_id, n.title, n.content, dist n.embedding query_embedding,
          currentTagsOf st n.note_id⟩
      match tag_filter with
      | some t => if t ∈ currentTagsOf st n.note_id then some row else none
      | none => some row)
    let sorted := rows.mergeSort (fun r1 r2 => decide (r1.distance ≤ r2.distance))
    .ok (sorted.take limit)

/-! ### Concrete states used by witnesses and counterexamples -/

/-- A database with one note (id 1) carrying the single tag `a`. -/
def exSt : DBState := ⟨[⟨1, "t", "c", []⟩], ["a"], [(1, "a")]⟩

/-- A database with notes 1 and 2, tagged `py` and `python`. -/
def exSt2 : DBState :=
  ⟨[⟨1, "n1", "c1", []⟩, ⟨2, "n2", "c2", []⟩], ["py", "python"],
    [(1, "py"), (2, "python")]⟩

/-- Three tagged notes with one-dimensional stand-in embeddings. -/
def W3 : DBState :=
  ⟨[⟨1, "X", "c1", [0]⟩, ⟨2, "Y", "c2", [1]⟩, ⟨3, "Z", "c3", [2]⟩],
    ["py", "python"],
    [(1, "py"), (2, "python"), (3, "py")]⟩

/-- A stand-in for the storage engine's cosine-distance operator on the
embeddings of `W3`: adjacent embeddings are close, the outer pair is far. -/
def distW (e1 e2 : List ℚ) : ℚ :=
  if (e1 = [0] ∧ e2 = [1]) ∨ (e1 = [1] ∧ e2 = [0]) ∨
     (e1 = [1] ∧ e2 = [2]) ∨ (e1 = [2] ∧ e2 = [1]) then 1/10 else 1

/-- Cluster members with identical two-element tag sets. -/
def cnA : CNote := ⟨1, "n1", ["a", "b"]⟩

def cnB : CNote := ⟨2, "n2", ["a", "b"]⟩

/-- Cluster members sharing the single tag `ml`. -/
def cnC : CNote := ⟨4, "n4", ["ml"]⟩

def cnD : CNote := ⟨5, "n5", ["ml"]⟩

/-- A 100-dimensional embedding (wrong dimensionality). -/
def emb100 : List ℚ := List.replicate 100 0

/-! ### Derived notions used to state and prove the claims -/

/-- After a note has been processed: it carries the keep tag and none of the
replace tags. -/
def PostP (st : DBState) (keep : String) (replace : List String) (id : Nat) : Prop :=
  keep ∈ currentTagsOf st id ∧ ∀ t ∈ currentTagsOf st id, t ∉ replace

/-- Reachability along an adjacency-list function. -/
def ReachL (adjL : Nat → List Nat) : Nat → Nat → Prop :=
  Relation.ReflTransGen (fun x y => y ∈ adjL x)

/-- Two notes are joined by one similarity edge (in either direction). -/
def edgeStep (edges : List (Nat × Nat)) (x y : Nat) : Prop :=
  (x, y) ∈ edges ∨ (y, x) ∈ edges

/-- Two notes are connected by a path of similarity edges. -/
def edgeConnected (edges : List (Nat × Nat)) : Nat → Nat → Prop :=
  Relation.ReflTransGen (edgeStep edges)

/-- A node of the similarity graph that carries note data and has a distinct
neighbour that also carries note data (every node incident to a similarity
edge is such a node). -/
def GoodNode (adjL : Nat → List Nat) (lk : Nat → Option CNote) (a : Nat) : Prop :=
  (∃ nd, lk a = some nd) ∧ ∃ y ∈ adjL a, y ≠ a ∧ ∃ nd, lk y = some nd

/-- The termination measure of the DFS loop: stack size plus, for every
not-yet-visited node, one visit step plus its degree. -/
def dfsMeasure (adjL : Nat → List Nat) (allNodes : List Nat)
    (stack visited : List Nat) : Nat :=
  stack.length
    + ((allNodes.filter (fun v => decide (¬ v ∈ visited))).map
        (fun v => 1 + (adjL v).length)).sum

/-! ### Basic lemmas about the apply-side state operations -/

theorem ensureTag_notes (st : DBState) (t : String) : (ensureTag st t).notes = st.notes := by
  unfold ensureTag; split <;> rfl

theorem ensureTag_links (st : DBState) (t : String) : (ensureTag st t).links = st.links := by
  unfold ensureTag; split <;> rfl

theorem mem_ensureTag_tags (st : DBState) (t : String) : t ∈ (ensureTag st t).tags := by
  unfold ensureTag; split
  · assumption
  · simp

theorem ensureTag_eq_self (st : DBState) (t : String) (h : t ∈ st.tags) :
    ensureTag st t = st := by
  unfold ensureTag; rw [if_pos h]

theorem noteExists_congr {st st' : DBState} (h : st.notes = st'.notes) (id : Nat) :
    noteExists st id = noteExists st' id := by
  unfold noteExists; rw [h]

theorem currentTagsOf_congr {st st' : DBState} (h : st.links = st'.links) (id : Nat) :
    currentTagsOf st id = currentTagsOf st' id := by
  unfold currentTagsOf; rw [h]

theorem map_filter_eq_filter_map {α β : Type} (f : α → β) (p : α → Bool) (q : β → Bool) :
    ∀ l : List α, (∀ a ∈ l, p a = q (f a)) →
      (l.filter p).map f = (l.map f).filter q := by
  intro l
  induction l with
  | nil => intro _; rfl
  | cons a t ih =>
    intro h
    have ha := h a (List.mem_cons_self a t)
    have ht := ih (fun b hb => h b (List.mem_cons_of_mem _ hb))
    by_cases hp : p a = true
    · rw [List.filter_cons_of_pos hp, List.map_cons, List.map_cons,
        List.filter_cons_of_pos (ha ▸ hp), ht]
    · rw [List.filter_cons_of_neg hp, List.map_cons,
        List.filter_cons_of_neg (ha ▸ hp), ht]

theorem filter_filter_of_imp {α : Type} (p q : α → Bool) :
    ∀ l : List α, (∀ a ∈ l, q a = true → p a = true) →
      (l.filter p).filter q = l.filter q := by
  intro l
  induction l with
  | nil => intro _; rfl
  | cons a t ih =>
    intro h
    have ht := ih (fun b hb => h b (List.mem_cons_of_mem _ hb))
    by_cases hq : q a = true
    · have hp := h a (List.mem_cons_self a t) hq
      rw [List.filter_cons_of_pos hp, List.filter_cons_of_pos hq,
        List.filter_cons_of_pos hq, ht]
    · by_cases hp : p a = true
      · rw [List.filter_cons_of_pos hp, List.filter_cons_of_neg hq,
          List.filter_cons_of_neg hq, ht]
      · rw [List.filter_cons_of_neg hp, List.filter_cons_of_neg hq, ht]

theorem filter_remove_aux (ls : List (Nat × String)) (id : Nat) (names : List String) :
    ((ls.filter (fun l => decide (¬ (l.1 = id ∧ l.2 ∈ names)))).filter
        (fun l => decide (l.1 = id))).map (fun l => l.2)
      = ((ls.filter (fun l => decide (l.1 = id))).map (fun l => l.2)).filter
          (fun t => decide (¬ t ∈ names)) := by
  rw [List.filter_comm]
  refine map_filter_eq_filter_map (fun l => l.2)
    (fun l => decide (¬ (l.1 = id ∧ l.2 ∈ names))) (fun t => decide (¬ t ∈ names))
    (ls.filter (fun l => decide (l.1 = id))) ?_
  intro a ha
  have h1 : a.1 = id := by
    have := List.of_mem_filter ha
    simpa using this
  simp [h1]

theorem currentTagsOf_removeLinks_self (st : DBState) (id : Nat) (names : List String) :
    currentTagsOf (removeLinks st id names) id
      = (currentTagsOf st id).filter (fun t => decide (¬ t ∈ names)) := by
  unfold currentTagsOf removeLinks
  exact filter_remove_aux st.links id names

theorem filter_remove_other_aux (ls : List (Nat × String)) (id j : Nat)
    (names : List String) (h : j ≠ id) :
    (ls.filter (fun l => decide (¬ (l.1 = id ∧ l.2 ∈ names)))).filter
        (fun l => decide (l.1 = j))
      = ls.filter (fun l => decide (l.1 = j)) := by
  refine filter_filter_of_imp _ _ ls ?_
  intro a _ hq
  have h1 : a.1 = j := by simpa using hq
  have h2 : ¬ a.1 = id := by rw [h1]; exact h
  simp [h2]

theorem currentTagsOf_removeLinks_other (st : DBState) (id j : Nat)
    (names : List String) (h : j ≠ id) :
    currentTagsOf (removeLinks st id names) j = currentTagsOf st j := by
  unfold currentTagsOf removeLinks
  rw [filter_remove_other_aux st.links id j names h]

theorem currentTagsOf_addLink_self (st : DBState) (id : Nat) (t : String) :
    currentTagsOf (addLink st id t) id = currentTagsOf st id ++ [t] := by
  simp [currentTagsOf, addLink]

theorem currentTagsOf_addLink_other (st : DBState) (id j : Nat) (t : String)
    (h : j ≠ id) :
    currentTagsOf (addLink st id t) j = currentTagsOf st j := by
  simp [currentTagsOf, addLink, Ne.symm h]

theorem processNote_notes (k : String) (r : List String) (acc : DBState × ApplyCounts)
    (id : Nat) : (processNote k r acc id).1.notes = acc.1.notes := by
  unfold processNote
  dsimp only
  split
  · dsimp only
    split <;> rfl
  · rfl

theorem processNote_tags (k : String) (r : List String) (acc : DBState × ApplyCounts)
    (id : Nat) : (processNote k r acc id).1.tags = acc.1.tags := by
  unfold processNote
  dsimp only
  split
  · dsimp only
    split <;> rfl
  · rfl

theorem processNote_noteExists (k : String) (r : List String) (acc : DBState × ApplyCounts)
    (id j : Nat) : noteExists (processNote k r acc id).1 j = noteExists acc.1 j :=
  noteExists_congr (processNote_notes k r acc id) j

theorem processNote_frame (k : String) (r : List String) (acc : DBState × ApplyCounts)
    (id j : Nat) (h : j ≠ id) :
    currentTagsOf (processNote k r acc id).1 j = currentTagsOf acc.1 j := by
  unfold processNote
  dsimp only
  split
  · dsimp only
    split
    · exact currentTagsOf_removeLinks_other _ _ _ _ h
    · rw [currentTagsOf_addLink_other _ _ _ _ h]
      exact currentTagsOf_removeLinks_other _ _ _ _ h
  · rfl

theorem processNote_fst_counts (k : String) (r : List String) (st : DBState)
    (c c' : ApplyCounts) (id : Nat) :
    (processNote k r (st, c) id).1 = (processNote k r (st, c') id).1 := by
  unfold processNote
  dsimp only
  split <;> rfl

theorem foldl_processNote_notes (k : String) (r : List String) :
    ∀ (ids : List Nat) (st : DBState) (c : ApplyCounts),
      (List.foldl (processNote k r) (st, c) ids).1.notes = st.notes := by
  intro ids
  induction ids with
  | nil => intro st c; rfl
  | cons id rest ih =>
    intro st c
    rw [List.foldl_cons]
    rcases hps : processNote k r (st, c) id with ⟨st2, c2⟩
    rw [ih st2 c2]
    have := processNote_notes k r (st, c) id
    rw [hps] at this
    exact this

theorem foldl_processNote_tags (k : String) (r : List String) :
    ∀ (ids : List Nat) (st : DBState) (c : ApplyCounts),
      (List.foldl (processNote k r) (st, c) ids).1.tags = st.tags := by
  intro ids
  induction ids with
  | nil => intro st c; rfl
  | cons id rest ih =>
    intro st c
    rw [List.foldl_cons]
    rcases hps : processNote k r (st, c) id with ⟨st2, c2⟩
    rw [ih st2 c2]
    have := processNote_tags k r (st, c) id
    rw [hps] at this
    exact this

theorem foldl_processNote_noteExists (k : String) (r : List String) (ids : List Nat)
    (st : DBState) (c : ApplyCounts) (j : Nat) :
    noteExists (List.foldl (processNote k r) (st, c) ids).1 j = noteExists st j :=
  noteExists_congr (foldl_processNote_notes k r ids st c) j

theorem foldl_processNote_frame (k : String) (r : List String) :
    ∀ (ids : List Nat) (st : DBState) (c : ApplyCounts) (j : Nat), j ∉ ids →
      currentTagsOf (List.foldl (processNote k r) (st, c) ids).1 j = currentTagsOf st j := by
  intro ids
  induction ids with
  | nil => intro st c j _; rfl
  | cons id rest ih =>
    intro st c j hj
    rw [List.foldl_cons]
    rcases hps : processNote k r (st, c) id with ⟨st2, c2⟩
    rw [ih st2 c2 j (fun hh => hj (List.mem_cons_of_mem _ hh))]
    have := processNote_frame k r (st, c) id j (fun hh => hj (hh ▸ List.mem_cons_self id rest))
    rw [hps] at this
    exact this

theorem foldl_processNote_fst_counts (k : String) (r : List String) :
    ∀ (ids : List Nat) (st : DBState) (c c' : ApplyCounts),
      (List.foldl (processNote k r) (st, c) ids).1
        = (List.foldl (processNote k r) (st, c') ids).1 := by
  intro ids
  induction ids with
  | nil => intro st c c'; rfl
  | cons id rest ih =>
    intro st c c'
    rw [List.foldl_cons, List.foldl_cons]
    rcases hps : processNote k r (st, c) id with ⟨st2, c2⟩
    rcases hps' : processNote k r (st, c') id with ⟨st2', c2'⟩
    have heq : st2 = st2' := by
      have := processNote_fst_counts k r st c c' id
      rw [hps, hps'] at this
      exact this
    rw [heq]
    exact ih st2' c2 c2'

theorem foldl_processNote_warnings (k : String) (r : List String) :
    ∀ (ids : List Nat) (st : DBState) (c : ApplyCounts),
      (List.foldl (processNote k r) (st, c) ids).2.warnings
        = c.warnings ++ ids.filter (fun id => ! noteExists st id) := by
  intro ids
  induction ids with
  | nil => intro st c; simp
  | cons id rest ih =>
    intro st c
    rw [List.foldl_cons]
    rcases hps : processNote k r (st, c) id with ⟨st2, c2⟩
    have hne : ∀ i, noteExists st2 i = noteExists st i := by
      intro i
      have := processNote_noteExists k r (st, c) id i
      rw [hps] at this
      exact this
    have hfil : rest.filter (fun i => ! noteExists st2 i)
        = rest.filter (fun i => ! noteExists st i) := by
      apply List.filter_congr
      intro i _
      rw [hne i]
    by_cases h : noteExists st id = true
    · have hw : c2.warnings = c.warnings := by
        have : processNote k r (st, c) id = (st2, c2) := hps
        unfold processNote at this
        dsimp only at this
        rw [if_pos h] at this
        have := congrArg (fun p => p.2.warnings) this
        simpa using this.symm
      rw [ih st2 c2, hw, hfil, List.filter_cons]
      simp [h]
    · have hw : c2.warnings = c.warnings ++ [id] := by
        have : processNote k r (st, c) id = (st2, c2) := hps
        unfold processNote at this
        dsimp only at this
        rw [if_neg h] at this
        have := congrArg (fun p => p.2.warnings) this
        simpa using this.symm
      rw [ih st2 c2, hw, hfil, List.filter_cons]
      simp [h]

theorem foldl_processNote_skip (k : String) (r : List String) :
    ∀ (ids : List Nat) (st : DBState) (c : ApplyCounts),
      (List.foldl (processNote k r) (st, c) ids).1
        = (List.foldl (processNote k r) (st, c)
            (ids.filter (fun id => noteExists st id))).1 := by
  intro ids
  induction ids with
  | nil => intro st c; rfl
  | cons id rest ih =>
    intro st c
    rw [List.foldl_cons, List.filter_cons]
    by_cases h : noteExists st id = true
    · rw [if_pos h, List.foldl_cons]
      rcases hps : processNote k r (st, c) id with ⟨st2, c2⟩
      have hne : ∀ i, noteExists st2 i = noteExists st i := by
        intro i
        have := processNote_noteExists k r (st, c) id i
        rw [hps] at this
        exact this
      have hfil : rest.filter (fun i => noteExists st2 i)
          = rest.filter (fun i => noteExists st i) := by
        apply List.filter_congr
        intro i _
        rw [hne i]
      rw [ih st2 c2, hfil]
    · rw [if_neg h]
      have hstep : processNote k r (st, c) id
          = (st, { c with warnings := c.warnings ++ [id] }) := by
        unfold processNote
        dsimp only
        rw [if_neg h]
      rw [hstep, ih st _]
      rw [foldl_processNote_fst_counts k r _ st _ c]

theorem goNotes_none_eq (keep : String) (replace : List String) :
    ∀ (ids : List Nat) (k : Nat) (st : DBState) (c : ApplyCounts),
      goNotes keep replace none ids k st c
        = .ok (List.foldl (processNote keep replace) (st, c) ids) := by
  intro ids
  induction ids with
  | nil => intro k st c; rfl
  | cons id rest ih =>
    intro k st c
    rw [goNotes, List.foldl_cons]
    rw [if_neg (by simp)]
    by_cases h : noteExists st id = true
    · rw [if_pos h]
      dsimp only
      rw [if_neg (by simp)]
      rw [ih]
      have hstep : processNote keep replace (st, c) id
          = (if keep ∈ currentTagsOf st id
              then removeLinks st id ((currentTagsOf st id).filter (fun t => decide (t ∈ replace)))
              else addLink (removeLinks st id
                ((currentTagsOf st id).filter (fun t => decide (t ∈ replace)))) id keep,
            { c with
              tagsRemoved := c.tagsRemoved
                + ((currentTagsOf st id).filter (fun t => decide (t ∈ replace))).length
              tagsAdded := c.tagsAdded + (if keep ∈ currentTagsOf st id then 0 else 1)
              notesUpdated := c.notesUpdated + 1 }) := by
        unfold processNote
        dsimp only
        rw [if_pos h]
      rw [hstep]
    · rw [if_neg h]
      rw [if_neg (by simp)]
      rw [ih]
      have hstep : processNote keep replace (st, c) id
          = (st, { c with warnings := c.warnings ++ [id] }) := by
        unfold processNote
        dsimp only
        rw [if_neg h]
      rw [hstep]

theorem goNotes_err (keep : String) (replace : List String) (fp : Option FailPoint) :
    ∀ (ids : List Nat) (k : Nat) (st : DBState) (c : ApplyCounts) (j : Nat),
      j < ids.length →
      (fp = some (.beforeNote (k + j)) ∨ fp = some (.midNote (k + j))) →
      goNotes keep replace fp ids k st c = .error () := by
  intro ids
  induction ids with
  | nil => intro k st c j hj _; simp at hj
  | cons id rest ih =>
    intro k st c j hj hfp
    cases j with
    | zero =>
      rcases hfp with h | h
      · rw [goNotes, if_pos (by rw [h]; simp)]
      · rw [goNotes, if_neg (by rw [h]; simp)]
        by_cases hx : noteExists st id = true
        · rw [if_pos hx]
          dsimp only
          rw [if_pos (by rw [h]; simp)]
        · rw [if_neg hx, if_pos (by rw [h]; simp)]
    | succ j =>
      have hlt : j < rest.length := by simpa using Nat.lt_of_succ_lt_succ (by simpa using hj)
      have harith : k + (j + 1) = (k + 1) + j := by omega
      rw [harith] at hfp
      have hne1 : ¬ (fp = some (.beforeNote k)) := by
        rcases hfp with h | h <;> subst h <;> simp <;> omega
      have hne2 : ¬ (fp = some (.midNote k)) := by
        rcases hfp with h | h <;> subst h <;> simp <;> omega
      rw [goNotes, if_neg hne1]
      by_cases hx : noteExists st id = true
      · rw [if_pos hx]
        dsimp only
        rw [if_neg hne2]
        exact ih (k + 1) _ _ j hlt hfp
      · rw [if_neg hx, if_neg hne2]
        exact ih (k + 1) _ _ j hlt hfp

/-- C1: if any step of the apply operation raises an unexpected failure after
the transaction has begun (during keep-tag setup or anywhere in the
note-processing loop), the whole transaction is rolled back: the durable
state is exactly the pre-call state (no note's tag links differ), and the
failure is reported to the caller (no counts are returned). -/
theorem apply_rollback_all_or_nothing (st : DBState) (ids : List Nat) (keep : String)
    (replace : List String) (p : FailPoint)
    (h : p = .atTagSetup ∨ ∃ k, k < ids.length ∧ (p = .beforeNote k ∨ p = .midNote k)) :
    apply_tag_normalization_txn st ids keep replace (some p) = (st, none) := by
  unfold apply_tag_normalization_txn
  rcases h with h | ⟨k, hk, hp⟩
  · subst h
    rw [if_pos rfl]
  · have hne : ¬ (some p = some FailPoint.atTagSetup) := by
      rcases hp with h | h <;> subst h <;> simp
    rw [if_neg hne]
    rw [goNotes_err keep replace (some p) ids 0 _ _ k hk (by simpa using hp)]

/-- C1 witness: a mid-note storage failure on a concrete request leaves the
concrete database unchanged and reports failure. -/
theorem apply_rollback_all_or_nothing_witness :
    apply_tag_normalization_txn exSt [1] "python" ["py"] (some (.midNote 0))
      = (exSt, none) :=
  apply_rollback_all_or_nothing exSt [1] "python" ["py"] (.midNote 0)
    (Or.inr ⟨0, by decide, Or.inr rfl⟩)

/-- C8: a request containing unknown note ids still commits: the call
reports counts (no failure), the unknown ids are exactly the recorded
warnings, and the final state is the state obtained by processing only the
existing ids. -/
theorem apply_skips_missing_notes (st : DBState) (ids : List Nat) (keep : String)
    (replace : List String) :
    (apply_tag_normalization_txn st ids keep replace none).2
        = some (apply_tag_normalization st ids keep replace).2
      ∧ (apply_tag_normalization st ids keep replace).2.warnings
        = ids.filter (fun id => ! noteExists st id)
      ∧ (apply_tag_normalization_txn st ids keep replace none).1
        = (apply_tag_normalization st (ids.filter (fun id => noteExists st id))
            keep replace).1 := by
  have hpredw : (fun id => ! noteExists (ensureTag st keep) id)
      = (fun id => ! noteExists st id) := by
    funext i
    rw [noteExists_congr (ensureTag_notes st keep) i]
  have hprede : (fun id => noteExists (ensureTag st keep) id)
      = (fun id => noteExists st id) := by
    funext i
    exact noteExists_congr (ensureTag_notes st keep) i
  refine ⟨?_, ?_, ?_⟩
  · unfold apply_tag_normalization_txn
    rw [if_neg (by simp), goNotes_none_eq]
    unfold apply_tag_normalization
    rcases hfold : List.foldl (processNote keep replace) (ensureTag st keep, initCounts) ids
      with ⟨st1, c1⟩
    rfl
  · unfold apply_tag_normalization
    rw [foldl_processNote_warnings, hpredw]
    rfl
  · unfold apply_tag_normalization_txn
    rw [if_neg (by simp), goNotes_none_eq]
    unfold apply_tag_normalization
    rcases hfold : List.foldl (processNote keep replace) (ensureTag st keep, initCounts) ids
      with ⟨st1, c1⟩
    have hskip := foldl_processNote_skip keep replace ids (ensureTag st keep) initCounts
    rw [hfold] at hskip
    dsimp only
    dsimp only at hskip
    rw [hprede] at hskip
    exact hskip

/-- C8 witness: the concrete Scenario-C request with unknown id 999 commits,
warns on 999, and updates only the existing notes. -/
theorem apply_skips_missing_notes_witness :
    (apply_tag_normalization_txn exSt2 [1, 2, 999] "python" ["py"] none).2
        = some (apply_tag_normalization exSt2 [1, 2, 999] "python" ["py"]).2
      ∧ (apply_tag_normalization exSt2 [1, 2, 999] "python" ["py"]).2.warnings
        = [1, 2, 999].filter (fun id => ! noteExists exSt2 id)
      ∧ (apply_tag_normalization_txn exSt2 [1, 2, 999] "python" ["py"] none).1
        = (apply_tag_normalization exSt2
            ([1, 2, 999].filter (fun id => noteExists exSt2 id)) "python" ["py"]).1 :=
  apply_skips_missing_notes exSt2 [1, 2, 999] "python" ["py"]

theorem removeLinks_nil (st : DBState) (id : Nat) : removeLinks st id [] = st := by
  cases st
  unfold removeLinks
  simp

/-- Processing an existing note establishes `PostP` for it, provided the
keep tag is not itself among the replace tags. -/
theorem processNote_establishes_post (keep : String) (replace : List String)
    (h : keep ∉ replace) (st : DBState) (c : ApplyCounts) (id : Nat)
    (hx : noteExists st id = true) :
    PostP (processNote keep replace (st, c) id).1 keep replace id := by
  unfold processNote
  dsimp only
  rw [if_pos hx]
  by_cases hp : keep ∈ currentTagsOf st id
  · rw [if_pos hp]
    constructor
    · rw [currentTagsOf_removeLinks_self]
      apply List.mem_filter.mpr
      refine ⟨hp, ?_⟩
      simp only [decide_eq_true_eq]
      intro hmem
      have := List.mem_filter.mp hmem
      simp only [decide_eq_true_eq] at this
      exact h this.2
    · intro t ht
      rw [currentTagsOf_removeLinks_self] at ht
      have h1 := List.mem_filter.mp ht
      simp only [decide_eq_true_eq] at h1
      intro htr
      exact h1.2 (List.mem_filter.mpr ⟨h1.1, by simpa using htr⟩)
  · rw [if_neg hp]
    constructor
    · rw [currentTagsOf_addLink_self]
      exact List.mem_append_right _ (List.mem_singleton.mpr rfl)
    · intro t ht
      rw [currentTagsOf_addLink_self, currentTagsOf_removeLinks_self] at ht
      rcases List.mem_append.mp ht with ht1 | ht2
      · have h1 := List.mem_filter.mp ht1
        simp only [decide_eq_true_eq] at h1
        intro htr
        exact h1.2 (List.mem_filter.mpr ⟨h1.1, by simpa using htr⟩)
      · rw [List.mem_singleton.mp ht2]
        exact h

/-- Processing any note preserves `PostP` for every note. -/
theorem processNote_preserves_post (keep : String) (replace : List String)
    (st : DBState) (c : ApplyCounts) (id j : Nat)
    (hpost : PostP st keep replace j) :
    PostP (processNote keep replace (st, c) id).1 keep replace j := by
  by_cases hij : j = id
  · subst hij
    unfold processNote
    dsimp only
    by_cases hx : noteExists st j = true
    · rw [if_pos hx]
      have hrem : (currentTagsOf st j).filter (fun t => decide (t ∈ replace)) = [] := by
        apply List.filter_eq_nil_iff.mpr
        intro t ht
        simpa using hpost.2 t ht
      rw [hrem, if_pos hpost.1, removeLinks_nil]
      exact hpost
    · rw [if_neg hx]
      exact hpost
  · have hfr := processNote_frame keep replace (st, c) id j hij
    unfold PostP
    rw [hfr]
    exact hpost

/-- After one full apply run, every existing requested note satisfies
`PostP`, and `PostP` is preserved for all notes. -/
theorem foldl_establishes_post (keep : String) (replace : List String)
    (h : keep ∉ replace) :
    ∀ (ids : List Nat) (st : DBState) (c : ApplyCounts),
      (∀ id ∈ ids, noteExists st id = true →
        PostP (List.foldl (processNote keep replace) (st, c) ids).1 keep replace id)
      ∧ (∀ j, PostP st keep replace j →
          PostP (List.foldl (processNote keep replace) (st, c) ids).1 keep replace j) := by
  intro ids
  induction ids with
  | nil =>
    intro st c
    exact ⟨fun id hid => absurd hid (List.not_mem_nil id), fun j hj => hj⟩
  | cons id rest ih =>
    intro st c
    rw [List.foldl_cons]
    rcases hps : processNote keep replace (st, c) id with ⟨st2, c2⟩
    have hx2 : ∀ i, noteExists st2 i = noteExists st i := by
      intro i
      have := processNote_noteExists keep replace (st, c) id i
      rw [hps] at this
      exact this
    constructor
    · intro i hi hex
      rcases List.mem_cons.mp hi with rfl | hi2
      · have h1 : PostP st2 keep replace i := by
          have := processNote_establishes_post keep replace h st c i hex
          rw [hps] at this
          exact this
        exact (ih st2 c2).2 i h1
      · exact (ih st2 c2).1 i hi2 (by rw [hx2 i]; exact hex)
    · intro j hj
      have h1 : PostP st2 keep replace j := by
        have := processNote_preserves_post keep replace st c id j hj
        rw [hps] at this
        exact this
      exact (ih st2 c2).2 j h1

/-- A run over notes that already satisfy `PostP` changes nothing and
removes and adds no tag links. -/
theorem foldl_noop_of_post (keep : String) (replace : List String) :
    ∀ (ids : List Nat) (st : DBState) (c : ApplyCounts),
      (∀ id ∈ ids, noteExists st id = true → PostP st keep replace id) →
      (List.foldl (processNote keep replace) (st, c) ids).1 = st
      ∧ (List.foldl (processNote keep replace) (st, c) ids).2.tagsRemoved = c.tagsRemoved
      ∧ (List.foldl (processNote keep replace) (st, c) ids).2.tagsAdded = c.tagsAdded := by
  intro ids
  induction ids with
  | nil => intro st c _; exact ⟨rfl, rfl, rfl⟩
  | cons id rest ih =>
    intro st c hpost
    rw [List.foldl_cons]
    by_cases hx : noteExists st id = true
    · have hpid := hpost id (List.mem_cons_self id rest) hx
      have hstep : processNote keep replace (st, c) id
          = (st, { c with
              tagsRemoved := c.tagsRemoved + ([] : List String).length
              tagsAdded := c.tagsAdded + 0
              notesUpdated := c.notesUpdated + 1 }) := by
        unfold processNote
        dsimp only
        rw [if_pos hx]
        have hrem : (currentTagsOf st id).filter (fun t => decide (t ∈ replace)) = [] := by
          apply List.filter_eq_nil_iff.mpr
          intro t ht
          simpa using hpid.2 t ht
        rw [hrem]
        simp only [if_pos hpid.1]
        rw [removeLinks_nil]
      rw [hstep]
      have := ih st { c with
          tagsRemoved := c.tagsRemoved + ([] : List String).length
          tagsAdded := c.tagsAdded + 0
          notesUpdated := c.notesUpdated + 1 }
        (fun i hi hex => hpost i (List.mem_cons_of_mem _ hi) hex)
      simpa using this
    · have hstep : processNote keep replace (st, c) id
          = (st, { c with warnings := c.warnings ++ [id] }) := by
        unfold processNote
        dsimp only
        rw [if_neg hx]
      rw [hstep]
      exact ih st _ (fun i hi hex => hpost i (List.mem_cons_of_mem _ hi) hex)

/-- C2 counterexample: with `keepTag` also listed in `replaceTags`
(request `[1]`, keep `a`, replace `[a]` on a note tagged `a`), applying the
request twice does not reproduce the end state of applying it once, and the
second application reports a nonzero number of added tag links. -/
theorem apply_idempotent_counterexample :
    ¬ ((apply_tag_normalization (apply_tag_normalization exSt [1] "a" ["a"]).1
          [1] "a" ["a"]).1
        = (apply_tag_normalization exSt [1] "a" ["a"]).1
      ∧ (apply_tag_normalization (apply_tag_normalization exSt [1] "a" ["a"]).1
          [1] "a" ["a"]).2.tagsRemoved = 0
      ∧ (apply_tag_normalization (apply_tag_normalization exSt [1] "a" ["a"]).1
          [1] "a" ["a"]).2.tagsAdded = 0) := by
  decide

/-- C2 (amended): provided `keepTag` is not itself among `replaceTags`,
applying the same (noteIds, keepTag, replaceTags) request twice yields the
same end state as applying it once, and the second application reports zero
tag links removed and zero tag links added. -/
theorem apply_idempotent_of_keep_not_replaced (st : DBState) (ids : List Nat)
    (keep : String) (replace : List String) (h : keep ∉ replace) :
    (apply_tag_normalization (apply_tag_normalization st ids keep replace).1
        ids keep replace).1
      = (apply_tag_normalization st ids keep replace).1
    ∧ (apply_tag_normalization (apply_tag_normalization st ids keep replace).1
        ids keep replace).2.tagsRemoved = 0
    ∧ (apply_tag_normalization (apply_tag_normalization st ids keep replace).1
        ids keep replace).2.tagsAdded = 0 := by
  have hpost : ∀ i ∈ ids,
      noteExists (apply_tag_normalization st ids keep replace).1 i = true →
      PostP (apply_tag_normalization st ids keep replace).1 keep replace i := by
    intro i hi hex
    have hex2 : noteExists (ensureTag st keep) i = true := by
      have hq := foldl_processNote_noteExists keep replace ids (ensureTag st keep) initCounts i
      unfold apply_tag_normalization at hex
      rw [hq] at hex
      exact hex
    exact (foldl_establishes_post keep replace h ids (ensureTag st keep) initCounts).1 i hi hex2
  have hkeeptag : keep ∈ (apply_tag_normalization st ids keep replace).1.tags := by
    unfold apply_tag_normalization
    rw [foldl_processNote_tags]
    exact mem_ensureTag_tags st keep
  have hens : ensureTag (apply_tag_normalization st ids keep replace).1 keep
      = (apply_tag_normalization st ids keep replace).1 :=
    ensureTag_eq_self _ _ hkeeptag
  have h2 : apply_tag_normalization (apply_tag_normalization st ids keep replace).1
      ids keep replace
      = List.foldl (processNote keep replace)
          ((apply_tag_normalization st ids keep replace).1, initCounts) ids := by
    show List.foldl (processNote keep replace)
        (ensureTag (apply_tag_normalization st ids keep replace).1 keep, initCounts) ids = _
    rw [hens]
  rw [h2]
  have hmain := foldl_noop_of_post keep replace ids
    (apply_tag_normalization st ids keep replace).1 initCounts hpost
  simpa using hmain

/-- C2 witness: a concrete request with `keepTag ∉ replaceTags` applied
twice is idempotent and reports no removals or additions the second time. -/
theorem apply_idempotent_of_keep_not_replaced_witness :
    ("python" ∉ (["py"] : List String))
    ∧ ((apply_tag_normalization (apply_tag_normalization exSt2 [1, 2] "python" ["py"]).1
          [1, 2] "python" ["py"]).1
        = (apply_tag_normalization exSt2 [1, 2] "python" ["py"]).1
      ∧ (apply_tag_normalization (apply_tag_normalization exSt2 [1, 2] "python" ["py"]).1
          [1, 2] "python" ["py"]).2.tagsRemoved = 0
      ∧ (apply_tag_normalization (apply_tag_normalization exSt2 [1, 2] "python" ["py"]).1
          [1, 2] "python" ["py"]).2.tagsAdded = 0) :=
  ⟨by decide, apply_idempotent_of_keep_not_replaced exSt2 [1, 2] "python" ["py"] (by decide)⟩

/-- C10 counterexample: when the note id occurs twice in the request
(`[1, 1]` with keep `a`, replace `[a]`, note 1 tagged `a`), the note ends
the call WITH the keep tag, although all the claim's other conditions hold. -/
theorem keep_in_replace_counterexample :
    ("a" ∈ (["a"] : List String)) ∧ noteExists exSt 1 = true
    ∧ "a" ∈ currentTagsOf exSt 1 ∧ (1 ∈ [1, 1])
    ∧ "a" ∈ currentTagsOf (apply_tag_normalization exSt [1, 1] "a" ["a"]).1 1 := by
  decide

/-- C10 (amended): if `keepTag` also appears in `replaceTags`, then every
existing note that currently carries `keepTag` and whose id occurs exactly
once in the request ends the call without `keepTag`: the keep-tag link is
removed and not re-added (the presence check uses the link set fetched
before the removals). -/
theorem keep_in_replace_removed (st : DBState) (ids : List Nat) (keep : String)
    (replace : List String) (id : Nat)
    (h1 : keep ∈ replace) (h2 : noteExists st id = true)
    (h3 : keep ∈ currentTagsOf st id) (h4 : ids.count id = 1) :
    keep ∉ currentTagsOf (apply_tag_normalization st ids keep replace).1 id := by
  have hmem : id ∈ ids := by
    by_contra hc
    rw [List.count_eq_zero_of_not_mem hc] at h4
    exact absurd h4 (by simp)
  obtain ⟨s, t, rfl⟩ := List.append_of_mem hmem
  have hcs : s.count id = 0 ∧ t.count id = 0 := by
    rw [List.count_append, List.count_cons_self] at h4
    omega
  have hids : id ∉ s := by
    intro hc
    have := List.count_pos_iff_mem.mpr hc
    omega
  have hidt : id ∉ t := by
    intro hc
    have := List.count_pos_iff_mem.mpr hc
    omega
  unfold apply_tag_normalization
  rw [List.foldl_append, List.foldl_cons]
  rcases hfs : List.foldl (processNote keep replace) (ensureTag st keep, initCounts) s
    with ⟨stA, cA⟩
  have hcurA : currentTagsOf stA id = currentTagsOf st id := by
    have hfr := foldl_processNote_frame keep replace s (ensureTag st keep) initCounts id hids
    rw [hfs] at hfr
    rw [hfr]
    exact currentTagsOf_congr (ensureTag_links st keep) id
  have hexA : noteExists stA id = true := by
    have hq := foldl_processNote_noteExists keep replace s (ensureTag st keep) initCounts id
    rw [hfs] at hq
    rw [hq, noteExists_congr (ensureTag_notes st keep) id]
    exact h2
  have hprimA : keep ∈ currentTagsOf stA id := by rw [hcurA]; exact h3
  rcases hpn : processNote keep replace (stA, cA) id with ⟨stB, cB⟩
  have hstB : stB = removeLinks stA id
      ((currentTagsOf stA id).filter (fun x => decide (x ∈ replace))) := by
    have : (processNote keep replace (stA, cA) id).1 = removeLinks stA id
        ((currentTagsOf stA id).filter (fun x => decide (x ∈ replace))) := by
      unfold processNote
      dsimp only
      rw [if_pos hexA]
      dsimp only
      rw [if_pos hprimA]
    rw [hpn] at this
    exact this
  have hfr2 := foldl_processNote_frame keep replace t stB cB id hidt
  rw [hfr2, hstB, currentTagsOf_removeLinks_self]
  intro hmem2
  have hm := List.mem_filter.mp hmem2
  simp only [decide_eq_true_eq] at hm
  exact hm.2 (List.mem_filter.mpr ⟨hprimA, by simpa using h1⟩)

/-- C10 witness: a concrete request (id occurring once, keep tag also in
the replace list, note currently carrying it) ends without the keep tag. -/
theorem keep_in_replace_removed_witness :
    "a" ∉ currentTagsOf (apply_tag_normalization exSt [1] "a" ["a"]).1 1 :=
  keep_in_replace_removed exSt [1] "a" ["a"] 1 (by decide) (by decide) (by decide) (by decide)

/-! ### Tag-tally lemmas for the suggestion generator -/

theorem bump_keys (l : List (String × Nat)) (t : String) :
    (bump l t).map Prod.fst
      = if t ∈ l.map Prod.fst then l.map Prod.fst else l.map Prod.fst ++ [t] := by
  induction l with
  | nil => simp [bump]
  | cons p rest ih =>
    rcases p with ⟨s, n⟩
    by_cases h : s = t
    · subst h
      simp [bump]
    · rw [bump]
      rw [if_neg h]
      by_cases hmem : t ∈ rest.map Prod.fst
      · simp only [List.map_cons, ih, if_pos hmem]
        rw [if_pos (List.mem_cons_of_mem _ hmem)]
      · simp only [List.map_cons, ih, if_neg hmem]
        rw [if_neg (by
          intro hc
          rcases List.mem_cons.mp hc with hc1 | hc2
          · exact h hc1.symm
          · exact hmem hc2)]
        simp

theorem foldl_bump_keys_mem (ts : List String) :
    ∀ (acc : List (String × Nat)) (x : String),
      x ∈ (ts.foldl bump acc).map Prod.fst ↔ x ∈ acc.map Prod.fst ∨ x ∈ ts := by
  induction ts with
  | nil => intro acc x; simp
  | cons t rest ih =>
    intro acc x
    rw [List.foldl_cons, ih (bump acc t) x]
    have hb : x ∈ (bump acc t).map Prod.fst ↔ x ∈ acc.map Prod.fst ∨ x = t := by
      rw [bump_keys]
      by_cases hmem : t ∈ acc.map Prod.fst
      · rw [if_pos hmem]
        constructor
        · exact fun hx => Or.inl hx
        · rintro (hx | rfl)
          · exact hx
          · exact hmem
      · rw [if_neg hmem]
        simp
    rw [hb]
    simp only [List.mem_cons]
    tauto

theorem foldl_bump_keys_nodup (ts : List String) :
    ∀ (acc : List (String × Nat)), ((acc.map Prod.fst).Nodup) →
      ((ts.foldl bump acc).map Prod.fst).Nodup := by
  induction ts with
  | nil => intro acc h; exact h
  | cons t rest ih =>
    intro acc h
    rw [List.foldl_cons]
    apply ih
    rw [bump_keys]
    by_cases hmem : t ∈ acc.map Prod.fst
    · rw [if_pos hmem]; exact h
    · rw [if_neg hmem]
      simp [List.nodup_append, h, hmem]

theorem foldl_nested_eq_flat :
    ∀ (cluster : List CNote) (acc : List (String × Nat)),
      cluster.foldl (fun a note => note.tags.foldl bump a) acc
        = (cluster.flatMap (fun n => n.tags)).foldl bump acc := by
  intro cluster
  induction cluster with
  | nil => intro acc; rfl
  | cons n rest ih =>
    intro acc
    rw [List.foldl_cons, ih, List.flatMap_cons, List.foldl_append]

theorem tagCounts_length (cluster : List CNote) :
    (tagCounts cluster).length = numDistinctTags cluster := by
  have h1 : tagCounts cluster = (cluster.flatMap (fun n => n.tags)).foldl bump [] :=
    foldl_nested_eq_flat cluster []
  have hnodup : ((tagCounts cluster).map Prod.fst).Nodup := by
    rw [h1]
    exact foldl_bump_keys_nodup _ [] (by simp)
  have hmem : ∀ x, x ∈ (tagCounts cluster).map Prod.fst
      ↔ x ∈ cluster.flatMap (fun n => n.tags) := by
    intro x
    rw [h1, foldl_bump_keys_mem]
    simp
  have hcard1 : ((tagCounts cluster).map Prod.fst).toFinset.card
      = ((tagCounts cluster).map Prod.fst).length :=
    List.toFinset_card_of_nodup hnodup
  have hcard2 : ((cluster.flatMap (fun n => n.tags)).dedup).toFinset.card
      = ((cluster.flatMap (fun n => n.tags)).dedup).length :=
    List.toFinset_card_of_nodup (List.nodup_dedup _)
  have hfs : ((tagCounts cluster).map Prod.fst).toFinset
      = ((cluster.flatMap (fun n => n.tags)).dedup).toFinset := by
    apply Finset.ext
    intro x
    rw [List.mem_toFinset, List.mem_toFinset, hmem, List.mem_dedup]
  have : ((tagCounts cluster).map Prod.fst).length
      = ((cluster.flatMap (fun n => n.tags)).dedup).length := by
    rw [← hcard1, ← hcard2, hfs]
  simpa [numDistinctTags] using this

theorem find_aux :
    ∀ (clusters : List (List CNote)) (acc : List TagNormalizationSuggestion),
      clusters.foldl (fun suggestions cluster =>
        let tag_counts := tagCounts cluster
        if tag_counts.length ≤ 1 then suggestions
        else if 1 < tag_counts.length then suggestions ++ [mkSuggestion cluster]
        else suggestions) acc
      = acc ++ (clusters.filter (fun c => decide (2 ≤ numDistinctTags c))).map mkSuggestion := by
  intro clusters
  induction clusters with
  | nil => intro acc; simp
  | cons c rest ih =>
    intro acc
    rw [List.foldl_cons, List.filter_cons]
    by_cases hlen : (tagCounts c).length ≤ 1
    · have hnd : ¬ (2 ≤ numDistinctTags c) := by
        rw [← tagCounts_length]
        omega
      simp only [if_pos hlen]
      rw [ih acc]
      simp [hnd]
    · have hnd : 2 ≤ numDistinctTags c := by
        rw [← tagCounts_length]
        omega
      simp only [if_neg hlen, if_pos (by omega : 1 < (tagCounts c).length)]
      rw [ih (acc ++ [mkSuggestion c])]
      simp [hnd]

theorem find_suggestions_eq (clusters : List (List CNote)) :
    find_tag_normalization_suggestions clusters
      = (clusters.filter (fun c => decide (2 ≤ numDistinctTags c))).map mkSuggestion := by
  unfold find_tag_normalization_suggestions
  rw [find_aux clusters []]
  simp

/-- C5: the suggestion generator produces exactly one suggestion per cluster
having at least 2 distinct tag names among its members (tags tallied per
member note, a note with two tags contributing to two counts), and none for
any other cluster; in particular, for a single cluster a suggestion is
produced iff the cluster has at least 2 distinct tag names. -/
theorem suggestion_iff_two_distinct_tags (clusters : List (List CNote)) :
    find_tag_normalization_suggestions clusters
      = (clusters.filter (fun c => decide (2 ≤ numDistinctTags c))).map mkSuggestion
    ∧ ∀ c : List CNote,
        (find_tag_normalization_suggestions [c] ≠ [] ↔ 2 ≤ numDistinctTags c) := by
  refine ⟨find_suggestions_eq clusters, ?_⟩
  intro c
  rw [find_suggestions_eq [c], List.filter_cons]
  by_cases h : 2 ≤ numDistinctTags c
  · simp [h]
  · simp [h]

/-- C5 witness: on the concrete single-tag cluster of Scenario B, the
characterization applies and reports no suggestion. -/
theorem suggestion_iff_two_distinct_tags_witness :
    (find_tag_normalization_suggestions [[cnC, cnD]] ≠ []
      ↔ 2 ≤ numDistinctTags [cnC, cnD])
    ∧ find_tag_normalization_suggestions [[cnC, cnD]] = [] :=
  ⟨(suggestion_iff_two_distinct_tags []).2 [cnC, cnD], by decide⟩

/-- C6 counterexample: a cluster whose two members carry the identical tag
set `{a, b}` (more than one tag) DOES produce a suggestion, contradicting
the claim that identical tag sets yield no suggestion. -/
theorem identical_tag_sets_counterexample :
    (∀ n ∈ [cnA, cnB], n.tags = ["a", "b"])
    ∧ find_tag_normalization_suggestions [[cnA, cnB]] ≠ [] := by
  decide

theorem length_le_one_of_all_eq {α : Type} (l : List α) (t : α) (hnd : l.Nodup)
    (h : ∀ x ∈ l, x = t) : l.length ≤ 1 := by
  match l with
  | [] => simp
  | [a] => simp
  | a :: b :: rest =>
    exfalso
    have ha := h a (by simp)
    have hb := h b (by simp)
    have hne : a ≠ b := by
      have := List.nodup_cons.mp hnd
      exact fun hab => this.1 (hab ▸ List.mem_cons_self b rest)
    exact hne (ha.trans hb.symm)

/-- C6 (amended): a cluster whose members all carry the identical
single-element tag set (one distinct tag name) produces no suggestion;
this is a normal outcome, not an error. -/
theorem single_tag_cluster_no_suggestion (cluster : List CNote) (t : String)
    (h : ∀ n ∈ cluster, n.tags = [t]) :
    find_tag_normalization_suggestions [cluster] = [] := by
  have hnd : numDistinctTags cluster ≤ 1 := by
    unfold numDistinctTags
    apply length_le_one_of_all_eq _ t (List.nodup_dedup _)
    intro x hx
    rcases List.mem_flatMap.mp (List.mem_dedup.mp hx) with ⟨n, hn, hxn⟩
    rw [h n hn] at hxn
    simpa using hxn
  rw [find_suggestions_eq [cluster], List.filter_cons]
  have : ¬ (2 ≤ numDistinctTags cluster) := by omega
  simp [this]

/-- C6 witness: the concrete all-`ml` cluster yields no suggestion. -/
theorem single_tag_cluster_no_suggestion_witness :
    find_tag_normalization_suggestions [[cnC, cnD]] = [] :=
  single_tag_cluster_no_suggestion [cnC, cnD] "ml" (by decide)

/-- C9: a 3072-dimension check guards both note insertion and similarity
search: any embedding whose length is not exactly 3072 is rejected with a
dimensionality validation error before any comparison or write happens
(the functions return only the error, never a truncated or padded result). -/
theorem embedding_dimension_guard :
    (∀ (st : DBState) (title content : String) (embedding : List ℚ)
        (tags : List String), embedding.length ≠ 3072 →
        add_note st title content embedding tags
          = .error "Embedding must be exactly 3072 dimensions")
    ∧ (∀ (st : DBState) (dist : List ℚ → List ℚ → ℚ) (q : List ℚ) (limit : Nat)
        (tagf : Option String), q.length ≠ 3072 →
        search_notes_by_similarity st dist q limit tagf
          = .error "Query embedding must be exactly 3072 dimensions") := by
  constructor
  · intro st title content embedding tags h
    unfold add_note
    rw [if_pos h]
  · intro st dist q limit tagf h
    unfold search_notes_by_similarity
    rw [if_pos h]

/-- C9 witness: a concrete length-100 embedding is rejected by both
operations (Scenario D). -/
theorem embedding_dimension_guard_witness :
    emb100.length ≠ 3072
    ∧ add_note exSt "t" "c" emb100 []
        = .error "Embedding must be exactly 3072 dimensions"
    ∧ search_notes_by_similarity exSt distW emb100 10 none
        = .error "Query embedding must be exactly 3072 dimensions" :=
  ⟨by decide, embedding_dimension_guard.1 exSt "t" "c" emb100 [] (by decide),
    embedding_dimension_guard.2 exSt distW emb100 10 none (by decide)⟩

/-! ### Similarity-graph lemmas -/

theorem mem_insertNode (l : List Nat) (v x : Nat) :
    x ∈ insertNode l v ↔ x ∈ l ∨ x = v := by
  unfold insertNode
  split
  · rename_i h
    constructor
    · exact fun hx => Or.inl hx
    · rintro (hx | rfl)
      · exact hx
      · exact h
  · simp

theorem insertNode_nodup (l : List Nat) (v : Nat) (h : l.Nodup) :
    (insertNode l v).Nodup := by
  unfold insertNode
  split
  · exact h
  · rename_i hv
    simp [List.nodup_append, h, hv]

theorem mem_foldl_insert :
    ∀ (edges : List (Nat × Nat)) (acc : List Nat) (x : Nat),
      x ∈ edges.foldl (fun acc e => insertNode (insertNode acc e.1) e.2) acc
        ↔ x ∈ acc ∨ ∃ e ∈ edges, x = e.1 ∨ x = e.2 := by
  intro edges
  induction edges with
  | nil => intro acc x; simp
  | cons e rest ih =>
    intro acc x
    rw [List.foldl_cons, ih]
    rw [mem_insertNode, mem_insertNode]
    simp only [List.mem_cons]
    constructor
    · rintro (((hx | rfl) | rfl) | ⟨e2, he2, hor⟩)
      · exact Or.inl hx
      · exact Or.inr ⟨e, Or.inl rfl, Or.inl rfl⟩
      · exact Or.inr ⟨e, Or.inl rfl, Or.inr rfl⟩
      · exact Or.inr ⟨e2, Or.inr he2, hor⟩
    · rintro (hx | ⟨e2, (rfl | he2), hor⟩)
      · exact Or.inl (Or.inl (Or.inl hx))
      · rcases hor with rfl | rfl
        · exact Or.inl (Or.inl (Or.inr rfl))
        · exact Or.inl (Or.inr rfl)
      · exact Or.inr ⟨e2, he2, hor⟩

theorem foldl_insert_nodup :
    ∀ (edges : List (Nat × Nat)) (acc : List Nat), acc.Nodup →
      (edges.foldl (fun acc e => insertNode (insertNode acc e.1) e.2) acc).Nodup := by
  intro edges
  induction edges with
  | nil => intro acc h; exact h
  | cons e rest ih =>
    intro acc h
    rw [List.foldl_cons]
    exact ih _ (insertNode_nodup _ _ (insertNode_nodup _ _ h))

theorem mem_graphNodes (edges : List (Nat × Nat)) (x : Nat) :
    x ∈ graphNodes edges ↔ ∃ e ∈ edges, x = e.1 ∨ x = e.2 := by
  unfold graphNodes
  rw [mem_foldl_insert]
  simp

theorem graphNodes_nodup (edges : List (Nat × Nat)) : (graphNodes edges).Nodup :=
  foldl_insert_nodup edges [] (by simp)

theorem mem_adjList_exists (edges : List (Nat × Nat)) (v y : Nat)
    (h : y ∈ adjList edges v) : ∃ e ∈ edges, y = e.1 ∨ y = e.2 := by
  unfold adjList at h
  obtain ⟨e, he, hfe⟩ := List.mem_filterMap.mp h
  by_cases h1 : e.1 = v
  · rw [if_pos h1] at hfe
    exact ⟨e, he, Or.inr (Option.some.inj hfe).symm⟩
  · rw [if_neg h1] at hfe
    by_cases h2 : e.2 = v
    · rw [if_pos h2] at hfe
      exact ⟨e, he, Or.inl (Option.some.inj hfe).symm⟩
    · rw [if_neg h2] at hfe
      exact absurd hfe (by simp)

theorem adjList_mem_graphNodes (edges : List (Nat × Nat)) (v y : Nat)
    (h : y ∈ adjList edges v) : y ∈ graphNodes edges :=
  (mem_graphNodes edges y).mpr (mem_adjList_exists edges v y h)

theorem mem_adjList_iff_edgeStep (edges : List (Nat × Nat))
    (hlt : ∀ e ∈ edges, e.1 < e.2) (v y : Nat) :
    y ∈ adjList edges v ↔ edgeStep edges v y := by
  unfold adjList edgeStep
  rw [List.mem_filterMap]
  constructor
  · rintro ⟨e, he, hfe⟩
    by_cases h1 : e.1 = v
    · rw [if_pos h1] at hfe
      have h2 := Option.some.inj hfe
      left
      have : e = (v, y) := by
        rcases e with ⟨e1, e2⟩
        simp only at h1 h2
        rw [h1, h2]
      exact this ▸ he
    · rw [if_neg h1] at hfe
      by_cases h2 : e.2 = v
      · rw [if_pos h2] at hfe
        have h3 := Option.some.inj hfe
        right
        have : e = (y, v) := by
          rcases e with ⟨e1, e2⟩
          simp only at h2 h3
          rw [h2, h3]
        exact this ▸ he
      · rw [if_neg h2] at hfe
        exact absurd hfe (by simp)
  · rintro (hmem | hmem)
    · exact ⟨(v, y), hmem, by simp⟩
    · refine ⟨(y, v), hmem, ?_⟩
      have hne : y ≠ v := Nat.ne_of_lt (hlt (y, v) hmem)
      rw [if_neg hne]
      simp

theorem adjList_symm (edges : List (Nat × Nat)) (hlt : ∀ e ∈ edges, e.1 < e.2)
    (v y : Nat) (h : y ∈ adjList edges v) : v ∈ adjList edges y := by
  rw [mem_adjList_iff_edgeStep edges hlt] at h ⊢
  exact Or.symm h

theorem reachL_symm (adjL : Nat → List Nat)
    (hsym : ∀ x y, y ∈ adjL x → x ∈ adjL y) {a b : Nat}
    (h : ReachL adjL a b) : ReachL adjL b a := by
  induction h with
  | refl => exact Relation.ReflTransGen.refl
  | tail h1 h2 ih => exact Relation.ReflTransGen.head (hsym _ _ h2) ih

theorem reach_stays (adjL : Nat → List Nat) (S : List Nat)
    (hS : ∀ x ∈ S, ∀ y ∈ adjL x, y ∈ S) :
    ∀ x y, ReachL adjL x y → x ∈ S → y ∈ S := by
  intro x y h
  induction h with
  | refl => exact fun hx => hx
  | tail h1 h2 ih => exact fun hx => hS _ (ih hx) _ h2

/-! ### Correctness of the stack-based DFS -/

theorem dfsRun_visited_mono (adjL : Nat → List Nat) (lk : Nat → Option CNote) :
    ∀ (fuel : Nat) (stack visited : List Nat) (cluster : List CNote)
      (c : List CNote) (v : List Nat),
      dfsRun adjL lk fuel stack visited cluster = some (c, v) →
      ∀ x ∈ visited, x ∈ v := by
  intro fuel
  induction fuel with
  | zero =>
    intro stack visited cluster c v h
    exact absurd h (by rw [dfsRun]; simp)
  | succ n ih =>
    intro stack visited cluster c v h
    cases stack with
    | nil =>
      rw [dfsRun] at h
      simp only [Option.some.injEq, Prod.mk.injEq] at h
      obtain ⟨rfl, rfl⟩ := h
      exact fun x hx => hx
    | cons cur rest =>
      rw [dfsRun] at h
      by_cases hv : cur ∈ visited
      · rw [if_pos hv] at h
        exact ih rest visited cluster c v h
      · rw [if_neg hv] at h
        intro x hx
        exact ih _ _ _ c v h x (List.mem_cons_of_mem _ hx)

theorem dfsRun_sound (adjL : Nat → List Nat) (lk : Nat → Option CNote) :
    ∀ (fuel : Nat) (stack visited : List Nat) (cluster : List CNote)
      (c : List CNote) (v : List Nat),
      dfsRun adjL lk fuel stack visited cluster = some (c, v) →
      ∀ x ∈ v, x ∈ visited ∨ ∃ s ∈ stack, ReachL adjL s x := by
  intro fuel
  induction fuel with
  | zero =>
    intro stack visited cluster c v h
    exact absurd h (by rw [dfsRun]; simp)
  | succ n ih =>
    intro stack visited cluster c v h
    cases stack with
    | nil =>
      rw [dfsRun] at h
      simp only [Option.some.injEq, Prod.mk.injEq] at h
      obtain ⟨rfl, rfl⟩ := h
      exact fun x hx => Or.inl hx
    | cons cur rest =>
      rw [dfsRun] at h
      by_cases hv : cur ∈ visited
      · rw [if_pos hv] at h
        intro x hx
        rcases ih rest visited cluster c v h x hx with hx1 | ⟨s, hs, hsx⟩
        · exact Or.inl hx1
        · exact Or.inr ⟨s, List.mem_cons_of_mem _ hs, hsx⟩
      · rw [if_neg hv] at h
        intro x hx
        rcases ih _ _ _ c v h x hx with hx1 | ⟨s, hs, hsx⟩
        · rcases List.mem_cons.mp hx1 with rfl | hx2
          · exact Or.inr ⟨x, List.mem_cons_self _ _, Relation.ReflTransGen.refl⟩
          · exact Or.inl hx2
        · rcases List.mem_append.mp hs with hs1 | hs2
          · have : s ∈ adjL cur := by
              have := List.mem_reverse.mp hs1
              exact (List.mem_filter.mp this).1
            exact Or.inr ⟨cur, List.mem_cons_self _ _,
              Relation.ReflTransGen.head this hsx⟩
          · exact Or.inr ⟨s, List.mem_cons_of_mem _ hs2, hsx⟩

theorem dfsRun_closed (adjL : Nat → List Nat) (lk : Nat → Option CNote) :
    ∀ (fuel : Nat) (stack visited : List Nat) (cluster : List CNote)
      (c : List CNote) (v : List Nat),
      dfsRun adjL lk fuel stack visited cluster = some (c, v) →
      (∀ x ∈ visited, ∀ y ∈ adjL x, y ∈ visited ∨ y ∈ stack) →
      ∀ x ∈ v, ∀ y ∈ adjL x, y ∈ v := by
  intro fuel
  induction fuel with
  | zero =>
    intro stack visited cluster c v h
    exact absurd h (by rw [dfsRun]; simp)
  | succ n ih =>
    intro stack visited cluster c v h hinv
    cases stack with
    | nil =>
      rw [dfsRun] at h
      simp only [Option.some.injEq, Prod.mk.injEq] at h
      obtain ⟨rfl, rfl⟩ := h
      intro x hx y hy
      rcases hinv x hx y hy with h1 | h1
      · exact h1
      · exact absurd h1 (List.not_mem_nil y)
    | cons cur rest =>
      rw [dfsRun] at h
      by_cases hv : cur ∈ visited
      · rw [if_pos hv] at h
        refine ih rest visited cluster c v h ?_
        intro x hx y hy
        rcases hinv x hx y hy with h1 | h1
        · exact Or.inl h1
        · rcases List.mem_cons.mp h1 with rfl | h2
          · exact Or.inl hv
          · exact Or.inr h2
      · rw [if_neg hv] at h
        refine ih _ _ _ c v h ?_
        intro x hx y hy
        rcases List.mem_cons.mp hx with rfl | hx2
        · by_cases hyv : y ∈ x :: visited
          · exact Or.inl hyv
          · refine Or.inr (List.mem_append_left _ ?_)
            rw [List.mem_reverse]
            exact List.mem_filter.mpr ⟨hy, by simpa using hyv⟩
        · rcases hinv x hx2 y hy with h1 | h1
          · exact Or.inl (List.mem_cons_of_mem _ h1)
          · rcases List.mem_cons.mp h1 with rfl | h2
            · exact Or.inl (List.mem_cons_self _ _)
            · exact Or.inr (List.mem_append_right _ h2)

theorem dfsRun_cluster_mono (adjL : Nat → List Nat) (lk : Nat → Option CNote) :
    ∀ (fuel : Nat) (stack visited : List Nat) (cluster : List CNote)
      (c : List CNote) (v : List Nat),
      dfsRun adjL lk fuel stack visited cluster = some (c, v) →
      ∀ nd ∈ cluster, nd ∈ c := by
  intro fuel
  induction fuel with
  | zero =>
    intro stack visited cluster c v h
    exact absurd h (by rw [dfsRun]; simp)
  | succ n ih =>
    intro stack visited cluster c v h
    cases stack with
    | nil =>
      rw [dfsRun] at h
      simp only [Option.some.injEq, Prod.mk.injEq] at h
      obtain ⟨rfl, rfl⟩ := h
      exact fun nd hnd => hnd
    | cons cur rest =>
      rw [dfsRun] at h
      by_cases hv : cur ∈ visited
      · rw [if_pos hv] at h
        exact ih rest visited cluster c v h
      · rw [if_neg hv] at h
        intro nd hnd
        rcases hlk0 : lk cur with _ | nd0
        · rw [hlk0] at h
          exact ih _ _ _ c v h nd hnd
        · rw [hlk0] at h
          exact ih _ _ _ c v h nd (List.mem_append_left _ hnd)

theorem dfsRun_cluster_sound (adjL : Nat → List Nat) (lk : Nat → Option CNote)
    (hlk : ∀ i nd, lk i = some nd → nd.note_id = i) :
    ∀ (fuel : Nat) (stack visited : List Nat) (cluster : List CNote)
      (c : List CNote) (v : List Nat),
      dfsRun adjL lk fuel stack visited cluster = some (c, v) →
      ∀ nd ∈ c, nd ∈ cluster
        ∨ (lk nd.note_id = some nd ∧ nd.note_id ∈ v ∧ nd.note_id ∉ visited) := by
  intro fuel
  induction fuel with
  | zero =>
    intro stack visited cluster c v h
    exact absurd h (by rw [dfsRun]; simp)
  | succ n ih =>
    intro stack visited cluster c v h
    cases stack with
    | nil =>
      rw [dfsRun] at h
      simp only [Option.some.injEq, Prod.mk.injEq] at h
      obtain ⟨rfl, rfl⟩ := h
      exact fun nd hnd => Or.inl hnd
    | cons cur rest =>
      rw [dfsRun] at h
      by_cases hv : cur ∈ visited
      · rw [if_pos hv] at h
        intro nd hnd
        rcases ih rest visited cluster c v h nd hnd with h1 | ⟨h1, h2, h3⟩
        · exact Or.inl h1
        · exact Or.inr ⟨h1, h2, h3⟩
      · rw [if_neg hv] at h
        intro nd hnd
        rcases hlk0 : lk cur with _ | nd0
        · rw [hlk0] at h
          rcases ih _ _ _ c v h nd hnd with h1 | ⟨h1, h2, h3⟩
          · exact Or.inl h1
          · exact Or.inr ⟨h1, h2, fun hc => h3 (List.mem_cons_of_mem _ hc)⟩
        · rw [hlk0] at h
          rcases ih _ _ _ c v h nd hnd with h1 | ⟨h1, h2, h3⟩
          · rcases List.mem_append.mp h1 with h4 | h4
            · exact Or.inl h4
            · have hnd0 : nd = nd0 := List.mem_singleton.mp h4
              subst hnd0
              have hid : nd.note_id = cur := hlk cur nd hlk0
              refine Or.inr ⟨hid ▸ hlk0, ?_, hid ▸ hv⟩
              rw [hid]
              exact dfsRun_visited_mono adjL lk n _ _ _ c v h cur
                (List.mem_cons_self _ _)
          · exact Or.inr ⟨h1, h2, fun hc => h3 (List.mem_cons_of_mem _ hc)⟩

theorem dfsRun_cluster_complete (adjL : Nat → List Nat) (lk : Nat → Option CNote) :
    ∀ (fuel : Nat) (stack visited : List Nat) (cluster : List CNote)
      (c : List CNote) (v : List Nat),
      dfsRun adjL lk fuel stack visited cluster = some (c, v) →
      ∀ i, i ∈ v → i ∉ visited → ∀ nd, lk i = some nd → nd ∈ c := by
  intro fuel
  induction fuel with
  | zero =>
    intro stack visited cluster c v h
    exact absurd h (by rw [dfsRun]; simp)
  | succ n ih =>
    intro stack visited cluster c v h
    cases stack with
    | nil =>
      rw [dfsRun] at h
      simp only [Option.some.injEq, Prod.mk.injEq] at h
      obtain ⟨rfl, rfl⟩ := h
      intro i hi hni _ _
      exact absurd hi hni
    | cons cur rest =>
      rw [dfsRun] at h
      by_cases hv : cur ∈ visited
      · rw [if_pos hv] at h
        exact ih rest visited cluster c v h
      · rw [if_neg hv] at h
        intro i hi hni nd hlknd
        by_cases hic : i = cur
        · subst hic
          rw [hlknd] at h
          have : nd ∈ cluster ++ [nd] := List.mem_append_right _ (List.mem_singleton.mpr rfl)
          exact dfsRun_cluster_mono adjL lk n _ _ _ c v h nd this
        · rcases hlk0 : lk cur with _ | nd0
          · rw [hlk0] at h
            exact ih _ _ _ c v h i hi
              (by simp [List.mem_cons, hic, hni]) nd hlknd
          · rw [hlk0] at h
            exact ih _ _ _ c v h i hi
              (by simp [List.mem_cons, hic, hni]) nd hlknd

theorem dfsRun_root_mem (adjL : Nat → List Nat) (lk : Nat → Option CNote) :
    ∀ (fuel : Nat) (r : Nat) (stack visited : List Nat) (cluster : List CNote)
      (c : List CNote) (v : List Nat),
      dfsRun adjL lk fuel (r :: stack) visited cluster = some (c, v) →
      r ∈ v := by
  intro fuel
  cases fuel with
  | zero =>
    intro r stack visited cluster c v h
    exact absurd h (by rw [dfsRun]; simp)
  | succ n =>
    intro r stack visited cluster c v h
    rw [dfsRun] at h
    by_cases hv : r ∈ visited
    · rw [if_pos hv] at h
      exact dfsRun_visited_mono adjL lk n _ _ _ c v h r hv
    · rw [if_neg hv] at h
      exact dfsRun_visited_mono adjL lk n _ _ _ c v h r (List.mem_cons_self _ _)

theorem sum_split_filter (f : Nat → Nat) :
    ∀ (l : List Nat), l.Nodup → ∀ (a : Nat) (visited : List Nat),
      a ∈ l → a ∉ visited →
      ((l.filter (fun v => decide (¬ v ∈ visited))).map f).sum
        = f a + ((l.filter (fun v => decide (¬ v ∈ (a :: visited)))).map f).sum := by
  intro l
  induction l with
  | nil =>
    intro _ a visited ha _
    exact absurd ha (List.not_mem_nil a)
  | cons b rest ih =>
    intro hnd a visited ha hav
    have hnd2 := List.nodup_cons.mp hnd
    rcases List.mem_cons.mp ha with rfl | ha2
    · have hfil : rest.filter (fun v => decide (¬ v ∈ (a :: visited)))
          = rest.filter (fun v => decide (¬ v ∈ visited)) := by
        apply List.filter_congr
        intro x hx
        have hxa : x ≠ a := fun hh => hnd2.1 (hh ▸ hx)
        simp [List.mem_cons, hxa]
      rw [List.filter_cons, List.filter_cons]
      rw [if_pos (by simpa using hav), if_neg (by simp)]
      rw [List.map_cons, List.sum_cons, hfil]
    · have hba : b ≠ a := fun hh => hnd2.1 (hh ▸ ha2)
      by_cases hbv : b ∈ visited
      · rw [List.filter_cons, List.filter_cons]
        rw [if_neg (by simpa using hbv),
          if_neg (by simp [List.mem_cons, hbv])]
        exact ih hnd2.2 a visited ha2 hav
      · rw [List.filter_cons, List.filter_cons]
        rw [if_pos (by simpa using hbv),
          if_pos (by simp [List.mem_cons, hbv, hba])]
        rw [List.map_cons, List.sum_cons, List.map_cons, List.sum_cons]
        rw [ih hnd2.2 a visited ha2 hav]
        omega

theorem sum_filter_map_le (f : Nat → Nat) (p : Nat → Bool) :
    ∀ (l : List Nat), ((l.filter p).map f).sum ≤ (l.map f).sum := by
  intro l
  induction l with
  | nil => simp
  | cons b rest ih =>
    rw [List.filter_cons]
    by_cases hb : p b = true
    · rw [if_pos hb, List.map_cons, List.sum_cons, List.map_cons, List.sum_cons]
      omega
    · rw [if_neg hb, List.map_cons, List.sum_cons]
      omega

theorem dfsRun_isSome (adjL : Nat → List Nat) (lk : Nat → Option CNote)
    (allNodes : List Nat) (hnd : allNodes.Nodup)
    (hadj : ∀ v y, y ∈ adjL v → y ∈ allNodes) :
    ∀ (fuel : Nat) (stack visited : List Nat) (cluster : List CNote),
      (∀ s ∈ stack, s ∈ allNodes) →
      dfsMeasure adjL allNodes stack visited < fuel →
      (dfsRun adjL lk fuel stack visited cluster).isSome := by
  intro fuel
  induction fuel with
  | zero =>
    intro stack visited cluster _ hm
    exact absurd hm (Nat.not_lt_zero _)
  | succ n ih =>
    intro stack visited cluster hstack hm
    cases stack with
    | nil => rw [dfsRun]; simp
    | cons cur rest =>
      rw [dfsRun]
      by_cases hv : cur ∈ visited
      · rw [if_pos hv]
        refine ih rest visited cluster
          (fun s hs => hstack s (List.mem_cons_of_mem _ hs)) ?_
        unfold dfsMeasure at hm ⊢
        simp only [List.length_cons] at hm
        omega
      · rw [if_neg hv]
        refine ih _ _ _ ?_ ?_
        · intro s hs
          rcases List.mem_append.mp hs with hs1 | hs2
          · have : s ∈ adjL cur := (List.mem_filter.mp (List.mem_reverse.mp hs1)).1
            exact hadj cur s this
          · exact hstack s (List.mem_cons_of_mem _ hs2)
        · have hsplit : ((allNodes.filter (fun v => decide (¬ v ∈ visited))).map
                (fun v => 1 + (adjL v).length)).sum
              = (1 + (adjL cur).length)
                + ((allNodes.filter (fun v => decide (¬ v ∈ (cur :: visited)))).map
                    (fun v => 1 + (adjL v).length)).sum :=
            sum_split_filter (fun v => 1 + (adjL v).length) allNodes hnd
              cur visited (hstack cur (List.mem_cons_self _ _)) hv
          have hpush : (((adjL cur).filter
              (fun y => decide (¬ y ∈ cur :: visited))).reverse).length
              ≤ (adjL cur).length := by
            rw [List.length_reverse]
            exact List.length_filter_le _ _
          unfold dfsMeasure at hm ⊢
          simp only [List.length_cons, List.length_append] at hm ⊢
          omega

theorem outerLoop_isSome (adjL : Nat → List Nat) (lk : Nat → Option CNote)
    (allNodes : List Nat) (hnd : allNodes.Nodup)
    (hadj : ∀ v y, y ∈ adjL v → y ∈ allNodes) (fuel : Nat)
    (hfuel : ∀ (visited : List Nat) (r : Nat), r ∈ allNodes →
      dfsMeasure adjL allNodes [r] visited < fuel) :
    ∀ (nodes visited : List Nat) (clusters : List (List CNote)),
      (∀ x ∈ nodes, x ∈ allNodes) →
      (outerLoop adjL lk fuel nodes visited clusters).isSome := by
  intro nodes
  induction nodes with
  | nil => intro visited clusters _; rw [outerLoop]; simp
  | cons r rest ih =>
    intro visited clusters hnodes
    rw [outerLoop]
    by_cases hv : r ∈ visited
    · rw [if_pos hv]
      exact ih visited clusters (fun x hx => hnodes x (List.mem_cons_of_mem _ hx))
    · rw [if_neg hv]
      have hsome := dfsRun_isSome adjL lk allNodes hnd hadj fuel [r] visited []
        (fun s hs => by
          rcases List.mem_cons.mp hs with rfl | hs2
          · exact hnodes s (List.mem_cons_self _ _)
          · exact absurd hs2 (List.not_mem_nil s))
        (hfuel visited r (hnodes r (List.mem_cons_self _ _)))
      rcases hdfs : dfsRun adjL lk fuel [r] visited [] with _ | ⟨c, v2⟩
      · rw [hdfs] at hsome
        exact absurd hsome (by simp)
      · exact ih v2 _ (fun x hx => hnodes x (List.mem_cons_of_mem _ hx))

/-- A completed DFS from an unvisited root over an adjacency-closed visited
set visits exactly the old visited set plus the connected component of the
root, and collects exactly the component members that carry note data. -/
theorem dfs_component (adjL : Nat → List Nat) (lk : Nat → Option CNote)
    (hsym : ∀ x y, y ∈ adjL x → x ∈ adjL y)
    (hlk : ∀ i nd, lk i = some nd → nd.note_id = i)
    (fuel : Nat) (r : Nat) (visited : List Nat) (c : List CNote) (v : List Nat)
    (hclosed : ∀ x ∈ visited, ∀ y ∈ adjL x, y ∈ visited)
    (hr : r ∉ visited)
    (h : dfsRun adjL lk fuel [r] visited [] = some (c, v)) :
    (∀ x, x ∈ v ↔ (x ∈ visited ∨ ReachL adjL r x))
    ∧ (∀ x, ReachL adjL r x → x ∉ visited)
    ∧ (∀ a, (∃ nd ∈ c, nd.note_id = a)
        ↔ (ReachL adjL r a ∧ ∃ nd, lk a = some nd))
    ∧ (∀ x ∈ v, ∀ y ∈ adjL x, y ∈ v) := by
  have hnotvis : ∀ x, ReachL adjL r x → x ∉ visited := by
    intro x hrx hxv
    have hxr : ReachL adjL x r := reachL_symm adjL hsym hrx
    exact hr (reach_stays adjL visited hclosed x r hxr hxv)
  have hvclosed : ∀ x ∈ v, ∀ y ∈ adjL x, y ∈ v := by
    refine dfsRun_closed adjL lk fuel [r] visited [] c v h ?_
    intro x hx y hy
    exact Or.inl (hclosed x hx y hy)
  have hrv : r ∈ v := dfsRun_root_mem adjL lk fuel r [] visited [] c v h
  have hmem : ∀ x, x ∈ v ↔ (x ∈ visited ∨ ReachL adjL r x) := by
    intro x
    constructor
    · intro hx
      rcases dfsRun_sound adjL lk fuel [r] visited [] c v h x hx with h1 | ⟨s, hs, hsx⟩
      · exact Or.inl h1
      · rcases List.mem_cons.mp hs with rfl | hs2
        · exact Or.inr hsx
        · exact absurd hs2 (List.not_mem_nil s)
    · rintro (hx | hx)
      · exact dfsRun_visited_mono adjL lk fuel [r] visited [] c v h x hx
      · exact reach_stays adjL v hvclosed r x hx hrv
  refine ⟨hmem, hnotvis, ?_, hvclosed⟩
  intro a
  constructor
  · rintro ⟨nd, hnd, rfl⟩
    rcases dfsRun_cluster_sound adjL lk hlk fuel [r] visited [] c v h nd hnd
      with h1 | ⟨h1, h2, h3⟩
    · exact absurd h1 (List.not_mem_nil nd)
    · refine ⟨?_, nd, h1⟩
      rcases (hmem nd.note_id).mp h2 with h4 | h4
      · exact absurd h4 h3
      · exact h4
  · rintro ⟨hreach, nd, hlknd⟩
    have hav : a ∈ v := (hmem a).mpr (Or.inr hreach)
    have hanv : a ∉ visited := hnotvis a hreach
    have hndc : nd ∈ c :=
      dfsRun_cluster_complete adjL lk fuel [r] visited [] c v h a hav hanv nd hlknd
    exact ⟨nd, hndc, hlk a nd hlknd⟩

theorem two_le_length_of_mem {α : Type} {l : List α} {a b : α}
    (ha : a ∈ l) (hb : b ∈ l) (hab : a ≠ b) : 2 ≤ l.length := by
  match l with
  | [] => exact absurd ha (List.not_mem_nil a)
  | [x] =>
    exfalso
    rw [List.mem_singleton.mp ha] at hab
    rw [List.mem_singleton.mp hb] at hab
    exact hab rfl
  | x :: y :: rest => simp

/-- The outer loop over graph nodes: every reported cluster is exactly a
connected component (restricted to nodes with note data), clusters are
pairwise disjoint on note ids, and every processed `GoodNode` lands in some
reported cluster. -/
theorem outerLoop_spec (adjL : Nat → List Nat) (lk : Nat → Option CNote)
    (hsym : ∀ x y, y ∈ adjL x → x ∈ adjL y)
    (hlk : ∀ i nd, lk i = some nd → nd.note_id = i) (fuel : Nat) :
    ∀ (nodes visited : List Nat) (clusters cls : List (List CNote)) (vfin : List Nat),
      outerLoop adjL lk fuel nodes visited clusters = some (cls, vfin) →
      (∀ x ∈ visited, ∀ y ∈ adjL x, y ∈ visited) →
      (∀ cl ∈ clusters,
        (∃ r, ∀ a, (∃ nd ∈ cl, nd.note_id = a)
            ↔ (ReachL adjL r a ∧ ∃ nd, lk a = some nd))
        ∧ ∀ nd ∈ cl, nd.note_id ∈ visited) →
      List.Pairwise
        (fun c1 c2 => ∀ nd ∈ c1, ∀ nd2 ∈ c2, nd.note_id ≠ nd2.note_id) clusters →
      (∀ a ∈ visited, GoodNode adjL lk a →
        ∃ cl ∈ clusters, ∃ nd ∈ cl, nd.note_id = a) →
      ((∀ cl ∈ cls,
          (∃ r, ∀ a, (∃ nd ∈ cl, nd.note_id = a)
              ↔ (ReachL adjL r a ∧ ∃ nd, lk a = some nd))
          ∧ ∀ nd ∈ cl, nd.note_id ∈ vfin)
        ∧ List.Pairwise
            (fun c1 c2 => ∀ nd ∈ c1, ∀ nd2 ∈ c2, nd.note_id ≠ nd2.note_id) cls
        ∧ (∀ a, (a ∈ visited ∨ a ∈ nodes) → GoodNode adjL lk a →
            ∃ cl ∈ cls, ∃ nd ∈ cl, nd.note_id = a)
        ∧ (∀ x ∈ visited, x ∈ vfin)) := by
  intro nodes
  induction nodes with
  | nil =>
    intro visited clusters cls vfin h hclosed hprev hdisj hinv3
    rw [outerLoop] at h
    simp only [Option.some.injEq, Prod.mk.injEq] at h
    obtain ⟨rfl, rfl⟩ := h
    refine ⟨hprev, hdisj, ?_, fun x hx => hx⟩
    intro a ha hg
    rcases ha with ha | ha
    · exact hinv3 a ha hg
    · exact absurd ha (List.not_mem_nil a)
  | cons r rest ih =>
    intro visited clusters cls vfin h hclosed hprev hdisj hinv3
    rw [outerLoop] at h
    by_cases hrv : r ∈ visited
    · rw [if_pos hrv] at h
      obtain ⟨hc1, hc2, hc3, hc4⟩ := ih visited clusters cls vfin h hclosed hprev hdisj hinv3
      refine ⟨hc1, hc2, ?_, hc4⟩
      intro a ha hg
      refine hc3 a ?_ hg
      rcases ha with ha | ha
      · exact Or.inl ha
      · rcases List.mem_cons.mp ha with rfl | ha2
        · exact Or.inl hrv
        · exact Or.inr ha2
    · rw [if_neg hrv] at h
      rcases hdfs : dfsRun adjL lk fuel [r] visited [] with _ | ⟨c, v2⟩
      · rw [hdfs] at h
        exact absurd h (by simp)
      · rw [hdfs] at h
        replace h : outerLoop adjL lk fuel rest v2
            (if 2 ≤ c.length then clusters ++ [c] else clusters) = some (cls, vfin) := h
        obtain ⟨hmem, hnotvis, hchar, hvclosed⟩ :=
          dfs_component adjL lk hsym hlk fuel r visited c v2 hclosed hrv hdfs
        have hv2mono : ∀ x ∈ visited, x ∈ v2 := fun x hx => (hmem x).mpr (Or.inl hx)
        have hnewids : ∀ nd ∈ c, nd.note_id ∈ v2 ∧ nd.note_id ∉ visited := by
          intro nd hnd
          have hx := (hchar nd.note_id).mp ⟨nd, hnd, rfl⟩
          exact ⟨(hmem nd.note_id).mpr (Or.inr hx.1), hnotvis nd.note_id hx.1⟩
        have hlen_of_good : ∀ a, ReachL adjL r a → GoodNode adjL lk a →
            2 ≤ c.length := by
          intro a hra hg
          obtain ⟨⟨nda, hnda⟩, y, hy, hyne, ndy, hndy⟩ := hg
          obtain ⟨n1, hn1, hid1⟩ := (hchar a).mpr ⟨hra, nda, hnda⟩
          have hry : ReachL adjL r y := Relation.ReflTransGen.tail hra hy
          obtain ⟨n2, hn2, hid2⟩ := (hchar y).mpr ⟨hry, ndy, hndy⟩
          have hne : n1 ≠ n2 := fun hh => hyne (by rw [← hid2, ← hh, hid1])
          exact two_le_length_of_mem hn1 hn2 hne
        by_cases hlen : 2 ≤ c.length
        · rw [if_pos hlen] at h
          have hprev2 : ∀ cl ∈ clusters ++ [c],
              (∃ r0, ∀ a, (∃ nd ∈ cl, nd.note_id = a)
                  ↔ (ReachL adjL r0 a ∧ ∃ nd, lk a = some nd))
              ∧ ∀ nd ∈ cl, nd.note_id ∈ v2 := by
            intro cl hcl
            rcases List.mem_append.mp hcl with hcl1 | hcl2
            · exact ⟨(hprev cl hcl1).1,
                fun nd hnd => hv2mono _ ((hprev cl hcl1).2 nd hnd)⟩
            · rw [List.mem_singleton.mp hcl2]
              exact ⟨⟨r, hchar⟩, fun nd hnd => (hnewids nd hnd).1⟩
          have hdisj2 : List.Pairwise
              (fun c1 c2 => ∀ nd ∈ c1, ∀ nd2 ∈ c2, nd.note_id ≠ nd2.note_id)
              (clusters ++ [c]) := by
            rw [List.pairwise_append]
            refine ⟨hdisj, List.pairwise_singleton _ _, ?_⟩
            intro c1 hc1 c2 hc2 nd hnd nd2 hnd2
            rw [List.mem_singleton.mp hc2] at hnd2
            have hin : nd.note_id ∈ visited := (hprev c1 hc1).2 nd hnd
            have hout : nd2.note_id ∉ visited := (hnewids nd2 hnd2).2
            exact fun hh => hout (hh ▸ hin)
          have hinv32 : ∀ a ∈ v2, GoodNode adjL lk a →
              ∃ cl ∈ clusters ++ [c], ∃ nd ∈ cl, nd.note_id = a := by
            intro a ha hg
            rcases (hmem a).mp ha with ha1 | ha1
            · obtain ⟨cl, hcl, hex⟩ := hinv3 a ha1 hg
              exact ⟨cl, List.mem_append_left _ hcl, hex⟩
            · exact ⟨c, List.mem_append_right _ (List.mem_singleton.mpr rfl),
                (hchar a).mpr ⟨ha1, hg.1⟩⟩
          obtain ⟨hc1, hc2, hc3, hc4⟩ :=
            ih v2 (clusters ++ [c]) cls vfin h hvclosed hprev2 hdisj2 hinv32
          refine ⟨hc1, hc2, ?_, fun x hx => hc4 x (hv2mono x hx)⟩
          intro a ha hg
          refine hc3 a ?_ hg
          rcases ha with ha | ha
          · exact Or.inl (hv2mono a ha)
          · rcases List.mem_cons.mp ha with rfl | ha2
            · exact Or.inl ((hmem a).mpr (Or.inr Relation.ReflTransGen.refl))
            · exact Or.inr ha2
        · rw [if_neg hlen] at h
          have hprev2 : ∀ cl ∈ clusters,
              (∃ r0, ∀ a, (∃ nd ∈ cl, nd.note_id = a)
                  ↔ (ReachL adjL r0 a ∧ ∃ nd, lk a = some nd))
              ∧ ∀ nd ∈ cl, nd.note_id ∈ v2 :=
            fun cl hcl => ⟨(hprev cl hcl).1,
              fun nd hnd => hv2mono _ ((hprev cl hcl).2 nd hnd)⟩
          have hinv32 : ∀ a ∈ v2, GoodNode adjL lk a →
              ∃ cl ∈ clusters, ∃ nd ∈ cl, nd.note_id = a := by
            intro a ha hg
            rcases (hmem a).mp ha with ha1 | ha1
            · exact hinv3 a ha1 hg
            · exact absurd (hlen_of_good a ha1 hg) hlen
          obtain ⟨hc1, hc2, hc3, hc4⟩ :=
            ih v2 clusters cls vfin h hvclosed hprev2 hdisj hinv32
          refine ⟨hc1, hc2, ?_, fun x hx => hc4 x (hv2mono x hx)⟩
          intro a ha hg
          refine hc3 a ?_ hg
          rcases ha with ha | ha
          · exact Or.inl (hv2mono a ha)
          · rcases List.mem_cons.mp ha with rfl | ha2
            · exact Or.inl ((hmem a).mpr (Or.inr Relation.ReflTransGen.refl))
            · exact Or.inr ha2

/-! ### Pipeline-level lemmas -/

theorem hasTagLink_iff (st : DBState) (i : Nat) :
    hasTagLink st i = true ↔ currentTagsOf st i ≠ [] := by
  unfold hasTagLink currentTagsOf
  rw [List.any_eq_true]
  constructor
  · rintro ⟨l, hl, hli⟩ hnil
    have hli2 : l.1 = i := by simpa using hli
    have : l ∈ st.links.filter (fun l => decide (l.1 = i)) :=
      List.mem_filter.mpr ⟨hl, by simpa using hli2⟩
    rw [List.map_eq_nil_iff.mp hnil] at this
    exact absurd this (List.not_mem_nil l)
  · intro hne
    rcases hfil : st.links.filter (fun l => decide (l.1 = i)) with _ | ⟨l, rest⟩
    · exact absurd (by rw [hfil]; rfl) hne
    · have hl : l ∈ st.links.filter (fun l => decide (l.1 = i)) := by
        rw [hfil]; exact List.mem_cons_self _ _
      have := List.mem_filter.mp hl
      exact ⟨l, this.1, this.2⟩

theorem notesData_key (st : DBState) : ∀ p ∈ notesData st, p.2.note_id = p.1 := by
  intro p hp
  obtain ⟨n, _, hfn⟩ := List.mem_filterMap.mp hp
  by_cases hc : currentTagsOf st n.note_id = []
  · rw [if_pos hc] at hfn
    exact absurd hfn (by simp)
  · rw [if_neg hc] at hfn
    have := Option.some.inj hfn
    rw [← this]

theorem lookupNote_coherent (nd : List (Nat × CNote))
    (hk : ∀ p ∈ nd, p.2.note_id = p.1) :
    ∀ i v, lookupNote nd i = some v → v.note_id = i := by
  induction nd with
  | nil => intro i v h; exact absurd h (by rw [lookupNote]; simp)
  | cons p rest ih =>
    intro i v h
    rcases p with ⟨k, v0⟩
    rw [lookupNote] at h
    by_cases hki : k = i
    · rw [if_pos hki] at h
      have hv := Option.some.inj h
      rw [← hv]
      rw [← hki]
      exact hk (k, v0) (List.mem_cons_self _ _)
    · rw [if_neg hki] at h
      exact ih (fun p hp => hk p (List.mem_cons_of_mem _ hp)) i v h

theorem lookupNote_isSome_of_key (nd : List (Nat × CNote)) (i : Nat) :
    ∀ v0 : CNote, (i, v0) ∈ nd → ∃ v, lookupNote nd i = some v := by
  induction nd with
  | nil => intro v0 h; exact absurd h (List.not_mem_nil _)
  | cons p rest ih =>
    intro v0 h
    rcases p with ⟨k, w⟩
    rw [lookupNote]
    by_cases hki : k = i
    · rw [if_pos hki]
      exact ⟨w, rfl⟩
    · rw [if_neg hki]
      rcases List.mem_cons.mp h with heq | hmem
      · exact absurd (congrArg Prod.fst heq).symm hki
      · exact ih v0 hmem

theorem notesData_mem_of_tagged (st : DBState) (n : NoteRow)
    (hn : n ∈ taggedNotes st) :
    (n.note_id, (⟨n.note_id, n.title, currentTagsOf st n.note_id⟩ : CNote))
      ∈ notesData st := by
  have htag : hasTagLink st n.note_id = true := by
    unfold taggedNotes at hn
    exact (List.mem_filter.mp hn).2
  have hne : ¬ (currentTagsOf st n.note_id = []) := (hasTagLink_iff st n.note_id).mp htag
  unfold notesData
  apply List.mem_filterMap.mpr
  exact ⟨n, hn, by rw [if_neg hne]⟩

theorem mem_similar_pairs (st : DBState) (dist : List ℚ → List ℚ → ℚ) (τ : ℚ)
    (a b : Nat) :
    (a, b) ∈ similar_pairs st dist τ
      ↔ ∃ n1 ∈ taggedNotes st, ∃ n2 ∈ taggedNotes st,
          n1.note_id = a ∧ n2.note_id = b ∧ a < b
          ∧ dist n1.embedding n2.embedding ≤ τ := by
  unfold similar_pairs
  rw [List.mem_flatMap]
  constructor
  · rintro ⟨n1, hn1, hmem⟩
    obtain ⟨n2, hn2, hfn⟩ := List.mem_filterMap.mp hmem
    by_cases hc : n1.note_id < n2.note_id ∧ dist n1.embedding n2.embedding ≤ τ
    · rw [if_pos hc] at hfn
      have := Option.some.inj hfn
      have ha : n1.note_id = a := congrArg Prod.fst this
      have hb : n2.note_id = b := congrArg Prod.snd this
      exact ⟨n1, hn1, n2, hn2, ha, hb, ha ▸ hb ▸ hc.1, hc.2⟩
    · rw [if_neg hc] at hfn
      exact absurd hfn (by simp)
  · rintro ⟨n1, hn1, n2, hn2, ha, hb, hab, hd⟩
    refine ⟨n1, hn1, List.mem_filterMap.mpr ⟨n2, hn2, ?_⟩⟩
    rw [if_pos ⟨ha ▸ hb ▸ hab, hd⟩, ha, hb]

theorem similar_pairs_lt (st : DBState) (dist : List ℚ → List ℚ → ℚ) (τ : ℚ) :
    ∀ e ∈ similar_pairs st dist τ, e.1 < e.2 := by
  rintro ⟨a, b⟩ he
  obtain ⟨n1, _, n2, _, _, _, hab, _⟩ := (mem_similar_pairs st dist τ a b).mp he
  exact hab

theorem similar_pairs_lookup (st : DBState) (dist : List ℚ → List ℚ → ℚ) (τ : ℚ)
    (a : Nat) (ha : ∃ e ∈ similar_pairs st dist τ, a = e.1 ∨ a = e.2) :
    ∃ v, lookupNote (notesData st) a = some v := by
  obtain ⟨⟨x, y⟩, he, hor⟩ := ha
  obtain ⟨n1, hn1, n2, hn2, hx, hy, _, _⟩ := (mem_similar_pairs st dist τ x y).mp he
  rcases hor with rfl | rfl
  · exact lookupNote_isSome_of_key (notesData st) n1.note_id
      ⟨n1.note_id, n1.title, currentTagsOf st n1.note_id⟩
      (notesData_mem_of_tagged st n1 hn1) |>.imp (fun v hv => hx ▸ hv) |>.elim
      (fun v hv => ⟨v, by rw [← hx] at hv ⊢; exact hv⟩)
  · obtain ⟨v, hv⟩ := lookupNote_isSome_of_key (notesData st) n2.note_id
      ⟨n2.note_id, n2.title, currentTagsOf st n2.note_id⟩
      (notesData_mem_of_tagged st n2 hn2)
    exact ⟨v, by rw [← hy]; exact hv⟩

theorem similar_pairs_nil_of_notesData_nil (st : DBState)
    (dist : List ℚ → List ℚ → ℚ) (τ : ℚ) (hnd : notesData st = []) :
    similar_pairs st dist τ = [] := by
  rcases hpr : similar_pairs st dist τ with _ | ⟨⟨a, b⟩, rest⟩
  · rfl
  · exfalso
    have hmem : (a, b) ∈ similar_pairs st dist τ := by
      rw [hpr]; exact List.mem_cons_self _ _
    obtain ⟨n1, hn1, _⟩ := (mem_similar_pairs st dist τ a b).mp hmem
    have := notesData_mem_of_tagged st n1 hn1
    rw [hnd] at this
    exact List.not_mem_nil _ this

theorem goodNode_of_graphNodes (st : DBState) (dist : List ℚ → List ℚ → ℚ) (τ : ℚ)
    (a : Nat) (ha : a ∈ graphNodes (similar_pairs st dist τ)) :
    GoodNode (adjList (similar_pairs st dist τ))
      (fun i => lookupNote (notesData st) i) a := by
  have hlt := similar_pairs_lt st dist τ
  obtain ⟨e, he, hor⟩ := (mem_graphNodes _ a).mp ha
  have hlk_a : ∃ v, lookupNote (notesData st) a = some v :=
    similar_pairs_lookup st dist τ a ⟨e, he, hor⟩
  rcases e with ⟨x, y⟩
  have hxy : x < y := hlt (x, y) he
  rcases hor with rfl | rfl
  · -- a = x, partner y
    refine ⟨hlk_a, y, ?_, ?_, ?_⟩
    · rw [mem_adjList_iff_edgeStep _ hlt]
      exact Or.inl he
    · exact fun hh => Nat.lt_irrefl _ (hh ▸ hxy)
    · exact similar_pairs_lookup st dist τ y ⟨(a, y), he, Or.inr rfl⟩
  · -- a = y, partner x
    refine ⟨hlk_a, x, ?_, ?_, ?_⟩
    · rw [mem_adjList_iff_edgeStep _ hlt]
      exact Or.inr he
    · exact fun hh => Nat.lt_irrefl _ (hh ▸ hxy)
    · exact similar_pairs_lookup st dist τ x ⟨(x, a), he, Or.inl rfl⟩

theorem edgeConnected_of_reachL (edges : List (Nat × Nat))
    (hlt : ∀ e ∈ edges, e.1 < e.2) (a b : Nat) :
    ReachL (adjList edges) a b ↔ edgeConnected edges a b := by
  constructor
  · exact Relation.ReflTransGen.mono
      (fun x y h => (mem_adjList_iff_edgeStep edges hlt x y).mp h)
  · exact Relation.ReflTransGen.mono
      (fun x y h => (mem_adjList_iff_edgeStep edges hlt x y).mpr h)

theorem edgeConnected_endpoint (edges : List (Nat × Nat)) (a b : Nat)
    (hab : a ≠ b) (h : edgeConnected edges a b) :
    ∃ e ∈ edges, a = e.1 ∨ a = e.2 := by
  rcases Relation.ReflTransGen.cases_head h with heq | ⟨y, hstep, _⟩
  · exact absurd heq hab
  · rcases hstep with hmem | hmem
    · exact ⟨(a, y), hmem, Or.inl rfl⟩
    · exact ⟨(y, a), hmem, Or.inr rfl⟩

theorem not_edgeConnected_nil (a b : Nat) (hab : a ≠ b) :
    ¬ edgeConnected [] a b := by
  intro h
  obtain ⟨e, he, _⟩ := edgeConnected_endpoint [] a b hab h
  exact List.not_mem_nil e he

theorem mem_taggedNotes (st : DBState) (n : NoteRow) :
    n ∈ taggedNotes st ↔ n ∈ st.notes ∧ currentTagsOf st n.note_id ≠ [] := by
  unfold taggedNotes
  rw [List.mem_filter]
  constructor
  · rintro ⟨h1, h2⟩
    exact ⟨h1, (hasTagLink_iff st n.note_id).mp h2⟩
  · rintro ⟨h1, h2⟩
    exact ⟨h1, (hasTagLink_iff st n.note_id).mpr h2⟩

/-- C4: the similarity-edge set is exactly the set of ordered pairs
`(a, b)` with `a < b` of distinct tagged notes whose stored-embedding
distance is at most `1 - s` (the configured similarity is converted to a
distance threshold via `1 - similarity`); self-comparisons are never
produced, untagged notes never appear, and only one direction per
unordered pair is produced. -/
theorem similar_pairs_spec (st : DBState) (dist : List ℚ → List ℚ → ℚ) (s : ℚ) :
    (∀ a b : Nat, (a, b) ∈ similar_pairs st dist (1 - s)
      ↔ ∃ n1 ∈ st.notes, ∃ n2 ∈ st.notes,
          n1.note_id = a ∧ n2.note_id = b
          ∧ currentTagsOf st a ≠ [] ∧ currentTagsOf st b ≠ []
          ∧ a < b ∧ dist n1.embedding n2.embedding ≤ 1 - s)
    ∧ (∀ a : Nat, (a, a) ∉ similar_pairs st dist (1 - s))
    ∧ (∀ a b : Nat, (a, b) ∈ similar_pairs st dist (1 - s)
        → (b, a) ∉ similar_pairs st dist (1 - s)) := by
  refine ⟨?_, ?_, ?_⟩
  · intro a b
    rw [mem_similar_pairs]
    constructor
    · rintro ⟨n1, hn1, n2, hn2, ha, hb, hab, hd⟩
      obtain ⟨hm1, ht1⟩ := (mem_taggedNotes st n1).mp hn1
      obtain ⟨hm2, ht2⟩ := (mem_taggedNotes st n2).mp hn2
      exact ⟨n1, hm1, n2, hm2, ha, hb, ha ▸ ht1, hb ▸ ht2, hab, hd⟩
    · rintro ⟨n1, hm1, n2, hm2, ha, hb, ht1, ht2, hab, hd⟩
      exact ⟨n1, (mem_taggedNotes st n1).mpr ⟨hm1, ha.symm ▸ ht1⟩,
        n2, (mem_taggedNotes st n2).mpr ⟨hm2, hb.symm ▸ ht2⟩, ha, hb, hab, hd⟩
  · intro a h
    exact Nat.lt_irrefl a (similar_pairs_lt st dist (1 - s) (a, a) h)
  · intro a b h1 h2
    have hab := similar_pairs_lt st dist (1 - s) (a, b) h1
    have hba := similar_pairs_lt st dist (1 - s) (b, a) h2
    exact Nat.lt_irrefl a (Nat.lt_trans hab hba)

/-- C4 witness: on the concrete three-note database, the near pair (1,2)
is an edge, its reverse direction is not produced, and no self-pair is. -/
theorem similar_pairs_spec_witness :
    (1, 2) ∈ similar_pairs W3 distW (1 - 0.85)
    ∧ (2, 1) ∉ similar_pairs W3 distW (1 - 0.85)
    ∧ (1, 1) ∉ similar_pairs W3 distW (1 - 0.85) := by
  have hmem : (1, 2) ∈ similar_pairs W3 distW (1 - 0.85) := by
    apply (mem_similar_pairs W3 distW (1 - 0.85) 1 2).mpr
    refine ⟨⟨1, "X", "c1", [0]⟩, by decide, ⟨2, "Y", "c2", [1]⟩, by decide,
      rfl, rfl, by decide, ?_⟩
    show distW [0] [1] ≤ 1 - 0.85
    norm_num [distW]
  exact ⟨hmem, (similar_pairs_spec W3 distW 0.85).2.2 1 2 hmem,
    (similar_pairs_spec W3 distW 0.85).2.1 1⟩

/-- C7: the clusters returned by one clustering run are pairwise disjoint:
no note id appears in two different clusters. -/
theorem clusters_pairwise_disjoint (st : DBState) (dist : List ℚ → List ℚ → ℚ)
    (s : ℚ) :
    (cluster_similar_notes st dist s).Pairwise
      (fun c1 c2 => ∀ nd ∈ c1, ∀ nd2 ∈ c2, nd.note_id ≠ nd2.note_id) := by
  unfold cluster_similar_notes
  dsimp only
  by_cases hnd : notesData st = []
  · rw [if_pos hnd]
    exact List.Pairwise.nil
  · rw [if_neg hnd]
    by_cases hpr : similar_pairs st dist (1 - s) = []
    · rw [if_pos hpr]
      exact List.Pairwise.nil
    · rw [if_neg hpr]
      rcases houter : outerLoop (adjList (similar_pairs st dist (1 - s)))
          (fun i => lookupNote (notesData st) i)
          (totalFuel (similar_pairs st dist (1 - s)))
          (graphNodes (similar_pairs st dist (1 - s))) [] []
        with _ | ⟨cls, vfin⟩
      · exact List.Pairwise.nil
      · have hlt := similar_pairs_lt st dist (1 - s)
        have hsym := adjList_symm (similar_pairs st dist (1 - s)) hlt
        have hlkc := lookupNote_coherent (notesData st) (notesData_key st)
        obtain ⟨_, hdisj, _, _⟩ := outerLoop_spec
          (adjList (similar_pairs st dist (1 - s)))
          (fun i => lookupNote (notesData st) i) hsym hlkc
          (totalFuel (similar_pairs st dist (1 - s)))
          (graphNodes (similar_pairs st dist (1 - s))) [] [] cls vfin houter
          (by simp) (by simp) List.Pairwise.nil (by simp)
        exact hdisj

/-- C7 witness: the disjointness theorem applied to the concrete
three-note database. -/
theorem clusters_pairwise_disjoint_witness :
    (cluster_similar_notes W3 distW 0.85).Pairwise
      (fun c1 c2 => ∀ nd ∈ c1, ∀ nd2 ∈ c2, nd.note_id ≠ nd2.note_id) :=
  clusters_pairwise_disjoint W3 distW 0.85

/-- C3: two distinct notes appear together in some cluster of a run if and
only if a path of similarity edges connects them; in particular, if A-B and
B-C are edges but A-C is not, the three notes still share one cluster
(chained, not pairwise, similarity). -/
theorem clusters_connected_iff (st : DBState) (dist : List ℚ → List ℚ → ℚ)
    (s : ℚ) (a b : Nat) (hab : a ≠ b) :
    (∃ cl ∈ cluster_similar_notes st dist s,
        (∃ nd ∈ cl, nd.note_id = a) ∧ (∃ nd ∈ cl, nd.note_id = b))
      ↔ edgeConnected (similar_pairs st dist (1 - s)) a b := by
  have hlt := similar_pairs_lt st dist (1 - s)
  have hsym := adjList_symm (similar_pairs st dist (1 - s)) hlt
  have hlkc := lookupNote_coherent (notesData st) (notesData_key st)
  unfold cluster_similar_notes
  dsimp only
  by_cases hnd : notesData st = []
  · rw [if_pos hnd]
    have hpr := similar_pairs_nil_of_notesData_nil st dist (1 - s) hnd
    constructor
    · rintro ⟨cl, hcl, _⟩
      exact absurd hcl (List.not_mem_nil cl)
    · intro hconn
      rw [hpr] at hconn
      exact absurd hconn (not_edgeConnected_nil a b hab)
  · rw [if_neg hnd]
    by_cases hpr : similar_pairs st dist (1 - s) = []
    · rw [if_pos hpr]
      constructor
      · rintro ⟨cl, hcl, _⟩
        exact absurd hcl (List.not_mem_nil cl)
      · intro hconn
        rw [hpr] at hconn
        exact absurd hconn (not_edgeConnected_nil a b hab)
    · rw [if_neg hpr]
      have hadj : ∀ v y, y ∈ adjList (similar_pairs st dist (1 - s)) v →
          y ∈ graphNodes (similar_pairs st dist (1 - s)) :=
        fun v y h => adjList_mem_graphNodes _ v y h
      have hfuel : ∀ (visited : List Nat) (r : Nat),
          r ∈ graphNodes (similar_pairs st dist (1 - s)) →
          dfsMeasure (adjList (similar_pairs st dist (1 - s)))
              (graphNodes (similar_pairs st dist (1 - s))) [r] visited
            < totalFuel (similar_pairs st dist (1 - s)) := by
        intro visited r _
        unfold dfsMeasure totalFuel
        have := sum_filter_map_le
          (fun v => 1 + (adjList (similar_pairs st dist (1 - s)) v).length)
          (fun v => decide (¬ v ∈ visited))
          (graphNodes (similar_pairs st dist (1 - s)))
        simp only [List.length_cons, List.length_nil]
        omega
      have hsome := outerLoop_isSome (adjList (similar_pairs st dist (1 - s)))
        (fun i => lookupNote (notesData st) i)
        (graphNodes (similar_pairs st dist (1 - s)))
        (graphNodes_nodup _) hadj (totalFuel (similar_pairs st dist (1 - s))) hfuel
        (graphNodes (similar_pairs st dist (1 - s))) [] [] (fun x hx => hx)
      rcases houter : outerLoop (adjList (similar_pairs st dist (1 - s)))
          (fun i => lookupNote (notesData st) i)
          (totalFuel (similar_pairs st dist (1 - s)))
          (graphNodes (similar_pairs st dist (1 - s))) [] []
        with _ | ⟨cls, vfin⟩
      · rw [houter] at hsome
        exact absurd hsome (by simp)
      · obtain ⟨hcls, _, hcover, _⟩ := outerLoop_spec
          (adjList (similar_pairs st dist (1 - s)))
          (fun i => lookupNote (notesData st) i) hsym hlkc
          (totalFuel (similar_pairs st dist (1 - s)))
          (graphNodes (similar_pairs st dist (1 - s))) [] [] cls vfin houter
          (by simp) (by simp) List.Pairwise.nil (by simp)
        constructor
        · rintro ⟨cl, hcl, ⟨nda, hnda, hida⟩, ⟨ndb, hndb, hidb⟩⟩
          obtain ⟨⟨r, hchar⟩, _⟩ := hcls cl hcl
          have hra := ((hchar a).mp ⟨nda, hnda, hida⟩).1
          have hrb := ((hchar b).mp ⟨ndb, hndb, hidb⟩).1
          have hreach : ReachL (adjList (similar_pairs st dist (1 - s))) a b :=
            Relation.ReflTransGen.trans
              (reachL_symm (adjList (similar_pairs st dist (1 - s))) hsym hra) hrb
          exact (edgeConnected_of_reachL (similar_pairs st dist (1 - s)) hlt a b).mp hreach
        · intro hconn
          have hreach : ReachL (adjList (similar_pairs st dist (1 - s))) a b :=
            (edgeConnected_of_reachL (similar_pairs st dist (1 - s)) hlt a b).mpr hconn
          have hga : a ∈ graphNodes (similar_pairs st dist (1 - s)) :=
            (mem_graphNodes _ a).mpr
              (edgeConnected_endpoint (similar_pairs st dist (1 - s)) a b hab hconn)
          have hgood := goodNode_of_graphNodes st dist (1 - s) a hga
          obtain ⟨cl, hcl, nda, hnda, hida⟩ := hcover a (Or.inr hga) hgood
          obtain ⟨⟨r, hchar⟩, _⟩ := hcls cl hcl
          have hra : ReachL (adjList (similar_pairs st dist (1 - s))) r a :=
            ((hchar a).mp ⟨nda, hnda, hida⟩).1
          have hrb : ReachL (adjList (similar_pairs st dist (1 - s))) r b :=
            Relation.ReflTransGen.trans hra hreach
          have hconnba : edgeConnected (similar_pairs st dist (1 - s)) b a :=
            (edgeConnected_of_reachL (similar_pairs st dist (1 - s)) hlt b a).mp
              (reachL_symm (adjList (similar_pairs st dist (1 - s))) hsym hreach)
          have hlkb : ∃ nd, lookupNote (notesData st) b = some nd :=
            similar_pairs_lookup st dist (1 - s) b
              (edgeConnected_endpoint (similar_pairs st dist (1 - s)) b a
                (Ne.symm hab) hconnba)
          exact ⟨cl, hcl, ⟨nda, hnda, hida⟩, (hchar b).mpr ⟨hrb, hlkb⟩⟩

/-- C3 witness: on the concrete three-note database (1-2 and 2-3 within
threshold, 1-3 not), notes 1 and 3 share a cluster exactly when a chain of
edges connects them. -/
theorem clusters_connected_iff_witness :
    (1 : Nat) ≠ 3
    ∧ ((∃ cl ∈ cluster_similar_notes W3 distW 0.85,
          (∃ nd ∈ cl, nd.note_id = 1) ∧ (∃ nd ∈ cl, nd.note_id = 3))
        ↔ edgeConnected (similar_pairs W3 distW (1 - 0.85)) 1 3) :=
  ⟨by decide, clusters_connected_iff W3 distW 0.85 1 3 (by decide)⟩
